import Mathlib

/-!
Verification development for a length-delimited framing codec
(`src/codec/length_delimited.rs` plus the `AsyncRead`/`AsyncWrite` shim in
`src/io.rs`).  The decoder turns a non-blocking byte channel into a sequence
of frames; the encoder turns payloads into `length field ++ payload` records;
both are derived from a shared `Builder` configuration.

Modelling conventions:
* bytes are `Nat`s (values < 256 wherever they come from `leBytes`/`beBytes`);
* the channel is a script of read events (`Ev`) or write events (`WEv`):
  each event is the outcome of one `try_read_buf` / `try_write_buf` attempt —
  a zero-length chunk models a read that transfers 0 bytes (channel closed);
* `usize` arithmetic is `Nat` with explicit wrapping (`% 2 ^ 64`) at the one
  place the source can underflow, and `isize` is `Int`;
* the growable buffer (`ByteBuf` from the `bytes` crate, an external
  collaborator per the spec) is a byte list `mem` plus a read cursor `rd`:
  `Buf` reads (`advance`, `get_uint`) move `rd`, `drain_to` removes bytes
  from the front of `mem` and shifts `rd` back — the semantics under which
  the repository's own test-suite behaviour is reproduced.
-/

deriving instance DecidableEq for Except

namespace LD

/-- Little-endian byte string of `v` in `w` bytes (least significant first). -/
def leBytes : Nat → Nat → List Nat
  | 0, _ => []
  | w + 1, v => v % 256 :: leBytes w (v / 256)

/-- Big-endian byte string of `v` in `w` bytes, as written by
`byteorder::BigEndian::write_uint`. -/
def beBytes (w v : Nat) : List Nat :=
  (leBytes w v).reverse

/-- Value of a little-endian byte string. -/
def leVal (l : List Nat) : Nat :=
  l.foldr (fun b a => a * 256 + b) 0

/-- Value of a big-endian byte string, as read by
`byteorder::BigEndian::read_uint`. -/
def beVal (l : List Nat) : Nat :=
  l.foldl (fun a b => a * 256 + b) 0

/-- The two wire byte orders (enum `ByteOrder` in the source). -/
inductive ByteOrder
  | BigEndian
  | LittleEndian
deriving DecidableEq, Repr

/-- Length-field bytes for value `v` in width `w`, in the given order
(`put_uint::<BigEndian>` / `put_uint::<LittleEndian>`). -/
def uintBytes : ByteOrder → Nat → Nat → List Nat
  | .BigEndian, w, v => beBytes w v
  | .LittleEndian, w, v => leBytes w v

/-- Value of a length-field byte string in the given order
(`get_uint::<BigEndian>` / `get_uint::<LittleEndian>`). -/
def uintValOf : ByteOrder → List Nat → Nat
  | .BigEndian, l => beVal l
  | .LittleEndian, l => leVal l

/-- The decoder's growable buffer (`bytes::ByteBuf`): underlying storage
`mem` with a read cursor `rd` (`rd ≤ mem.length` in all reachable states). -/
structure ByteBuf where
  mem : List Nat
  rd : Nat
deriving DecidableEq, Repr

/-- `ByteBuf::new()`: the empty buffer. -/
def ByteBuf.new : ByteBuf := ⟨[], 0⟩

/-- Readable length of the buffer (bytes after the read cursor). -/
def ByteBuf.len (b : ByteBuf) : Nat := b.mem.length - b.rd

/-- `is_empty`: no readable bytes. -/
def ByteBuf.isEmpty (b : ByteBuf) : Bool := b.len == 0

/-- `Buf::advance(k)`: move the read cursor forward. -/
def ByteBuf.advance (b : ByteBuf) (k : Nat) : ByteBuf := ⟨b.mem, b.rd + k⟩

/-- The next `w` readable bytes (what a `get_uint` of width `w` would read). -/
def ByteBuf.readBytes (b : ByteBuf) (w : Nat) : List Nat :=
  (b.mem.drop b.rd).take w

/-- Value read by `get_uint::<order>(w)` at the current cursor (the cursor
move is modelled by a separate `advance`). -/
def ByteBuf.getUintVal (b : ByteBuf) (o : ByteOrder) (w : Nat) : Nat :=
  uintValOf o (b.readBytes w)

/-- `drain_to(k)`: split off the first `k` bytes of the underlying storage
(front of `mem`), shifting the read cursor back accordingly. -/
def ByteBuf.drainTo (b : ByteBuf) (k : Nat) : List Nat × ByteBuf :=
  (b.mem.take k, ⟨b.mem.drop k, b.rd - k⟩)

/-- A read that transferred chunk `c` appends it at the tail. -/
def ByteBuf.append (b : ByteBuf) (c : List Nat) : ByteBuf := ⟨b.mem ++ c, b.rd⟩

/-- The shared frame-header configuration (struct `Builder`). -/
structure Builder where
  max_frame_len : Nat
  length_field_len : Nat
  length_field_offset : Nat
  length_adjustment : Int
  num_skip : Option Nat
  length_field_order : ByteOrder
deriving DecidableEq, Repr

/-- `Builder::new()`: the default configuration (8 MiB max, 4-byte field at
offset 0, no adjustment, derived skip, big-endian). -/
def Builder.new : Builder :=
  ⟨8 * 1024 * 1024, 4, 0, 0, none, .BigEndian⟩

/-- `set_max_frame_length`. -/
def Builder.set_max_frame_length (b : Builder) (val : Nat) : Builder :=
  { b with max_frame_len := val }

/-- `set_length_field_length`.  The source `assert!`s `0 < val && val <= 8`
(fail-fast programming error); theorems about valid configurations carry the
corresponding hypotheses. -/
def Builder.set_length_field_length (b : Builder) (val : Nat) : Builder :=
  { b with length_field_len := val }

/-- `set_length_field_offset`. -/
def Builder.set_length_field_offset (b : Builder) (val : Nat) : Builder :=
  { b with length_field_offset := val }

/-- `set_length_adjustment`. -/
def Builder.set_length_adjustment (b : Builder) (val : Int) : Builder :=
  { b with length_adjustment := val }

/-- `set_num_skip`. -/
def Builder.set_num_skip (b : Builder) (val : Nat) : Builder :=
  { b with num_skip := some val }

/-- Modelled from the spec: `set_byte_order`, the byte-order setter of the
configuration builder.  The setter itself is absent from
`src/src/codec/length_delimited.rs` (only the repository's test-suite calls
it); per the spec's construction surface it records the chosen order in the
configuration, which the source's decode/encode paths then dispatch on via
the `length_field_order` field. -/
def Builder.set_byte_order (b : Builder) (val : ByteOrder) : Builder :=
  { b with length_field_order := val }

/-- `Builder::num_head_bytes()`: number of header bytes that must be
buffered before the head can be processed:
`max(length_field_offset + length_field_len, num_skip.unwrap_or(0))`. -/
def Builder.num_head_bytes (b : Builder) : Nat :=
  max (b.length_field_offset + b.length_field_len) (b.num_skip.getD 0)

/-- `Builder::num_skip()` (the method): bytes drained from the buffer head
after parsing, `num_skip.unwrap_or(length_field_offset + length_field_len)`. -/
def Builder.effective_num_skip (b : Builder) : Nat :=
  b.num_skip.getD (b.length_field_offset + b.length_field_len)

/-- Wrapping `usize` subtraction (`a - b` with overflow checks off). -/
def usizeWrapSub (a b : Nat) : Nat :=
  (2 ^ 64 + a % 2 ^ 64 - b % 2 ^ 64) % 2 ^ 64

/-- The capacity the decoder reserves before a head read, translated from
line 159 of the source: `let rem = field_len - self.buf.len();`.  Note the
source uses `length_field_len`, not `num_head_bytes()`, and the `usize`
subtraction underflows whenever the buffered length exceeds the field
width. -/
def Builder.headReserveRem (b : Builder) (len : Nat) : Nat :=
  usizeWrapSub b.length_field_len len

/-- The spec's error taxonomy for the decoder.  In the source,
`frameTooLarge` is `InvalidData "frame size too big"`, `lengthOverflow` is
`InvalidInput "provided length would overflow after adjustment"`, and both
truncation errors are `UnexpectedEof "eof"` (distinguished by the state in
which the zero-byte read happened); `ioFailure` propagates a channel
error verbatim. -/
inductive DecErr
  | frameTooLarge
  | lengthOverflow
  | truncHeader
  | truncPayload
  | ioFailure
deriving DecidableEq, Repr

/-- `ReadState`: the decoder is awaiting a header, or `n` payload bytes. -/
inductive ReadState
  | head
  | data (n : Nat)
deriving DecidableEq, Repr

/-- One outcome of a `try_read_buf` attempt on the channel: pending, a chunk
of transferred bytes (`chunk []` = zero bytes transferred = shutdown), or a
hard I/O error. -/
inductive Ev
  | pend
  | chunk (c : List Nat)
  | fail
deriving DecidableEq, Repr

/-- Checked application of `length_adjustment` (lines 136–146).  For a
negative adjustment the source computes `(-adj) as usize`; composing the
(wrapping) negation with the reinterpreting cast yields the magnitude
`(-adj).toNat` for every representable `isize`, including `isize::MIN`
(where `-(-2^63)` wraps to `-2^63` and the cast gives `2^63`).
`checked_add` fails once the sum leaves the `usize` domain. -/
def adjustLen (b : Builder) (v : Nat) : Option Nat :=
  if b.length_adjustment < 0 then
    let m := (-b.length_adjustment).toNat
    if v < m then none else some (v - m)
  else
    let s := v + b.length_adjustment.toNat
    if s < 2 ^ 64 then some s else none

/-- The header value as the decoder reads it: skip `length_field_offset`
bytes, then `get_uint` of `length_field_len` bytes in the configured order. -/
def headVal (b : Builder) (buf : ByteBuf) : Nat :=
  (buf.advance b.length_field_offset).getUintVal b.length_field_order b.length_field_len

/-- The branch of `read_head` taken once `num_head_bytes()` bytes are
buffered (lines 114–155): advance past the offset, read the length field,
reject overlong frames, apply the adjustment with overflow checking, then
drain `num_skip()` bytes from the buffer head.  Returns the parse outcome
together with the buffer as the code leaves it. -/
def parseHead (b : Builder) (buf : ByteBuf) : Except DecErr Nat × ByteBuf :=
  let b1 := buf.advance b.length_field_offset
  let v := b1.getUintVal b.length_field_order b.length_field_len
  let b2 := b1.advance b.length_field_len
  if b.max_frame_len < v then (.error .frameTooLarge, b2)
  else
    match adjustLen b v with
    | none => (.error .lengthOverflow, b2)
    | some n => (.ok n, (b2.drainTo b.effective_num_skip).2)

/-- Result of `Decoder::read_head`. -/
inductive HeadRes
  | gotLen (n : Nat)
  | eos
  | notReady
  | derr (e : DecErr)
deriving DecidableEq, Repr

/-- The return taken by `read_head` once enough bytes are buffered: wrap the
`parseHead` outcome, leaving the channel script untouched. -/
def headParsed (b : Builder) (buf : ByteBuf) (sc : List Ev) : HeadRes × ByteBuf × List Ev :=
  match parseHead b buf with
  | (.ok n, buf') => (.gotLen n, buf', sc)
  | (.error e, buf') => (.derr e, buf', sc)

/-- `Decoder::read_head` (lines 109–174): loop until enough header bytes are
buffered, performing one read attempt per iteration; a zero-byte transfer is
a clean end on an empty buffer and a truncated header otherwise.  The
channel script threads through; an exhausted script acts as pending.

Line 159's per-iteration reserve is not part of this definition: its amount
is transcribed by `Builder.headReserveRem` (see C2), and its underflow abort
by the reserve-faithful `readHeadF` below.  This reserve-free loop therefore
describes each iteration conditional on the read attempt being reached; it
coincides with `readHeadF` outright whenever the abort cannot fire, in
particular for every configuration with
`num_head_bytes ≤ length_field_len` (`readHeadF_eq_readHead`). -/
def readHead (b : Builder) (buf : ByteBuf) : List Ev → HeadRes × ByteBuf × List Ev
  | [] =>
    if b.num_head_bytes ≤ buf.len then headParsed b buf []
    else (.notReady, buf, [])
  | .pend :: r =>
    if b.num_head_bytes ≤ buf.len then headParsed b buf (.pend :: r)
    else (.notReady, buf, r)
  | .fail :: r =>
    if b.num_head_bytes ≤ buf.len then headParsed b buf (.fail :: r)
    else (.derr .ioFailure, buf, r)
  | .chunk c :: r =>
    if b.num_head_bytes ≤ buf.len then headParsed b buf (.chunk c :: r)
    else if c.isEmpty then
      if buf.isEmpty then (.eos, buf, r) else (.derr .truncHeader, buf, r)
    else readHead b (buf.append c) r

/-- Result of `Decoder::read_data`. -/
inductive DataRes
  | frame (f : List Nat)
  | notReady
  | derr (e : DecErr)
deriving DecidableEq, Repr

/-- `Decoder::read_data` (lines 176–193): loop until `n` bytes are buffered,
then drain them as the frame; a zero-byte transfer is unconditionally an
error here. -/
def readData (n : Nat) (buf : ByteBuf) : List Ev → DataRes × ByteBuf × List Ev
  | [] =>
    if n ≤ buf.len then (.frame (buf.drainTo n).1, (buf.drainTo n).2, [])
    else (.notReady, buf, [])
  | .pend :: r =>
    if n ≤ buf.len then (.frame (buf.drainTo n).1, (buf.drainTo n).2, .pend :: r)
    else (.notReady, buf, r)
  | .fail :: r =>
    if n ≤ buf.len then (.frame (buf.drainTo n).1, (buf.drainTo n).2, .fail :: r)
    else (.derr .ioFailure, buf, r)
  | .chunk c :: r =>
    if n ≤ buf.len then (.frame (buf.drainTo n).1, (buf.drainTo n).2, .chunk c :: r)
    else if c.isEmpty then (.derr .truncPayload, buf, r)
    else readData n (buf.append c) r

/-- Result of one `Stream::poll` on the decoder. -/
inductive PollRes
  | frame (f : List Nat)
  | eos
  | notReady
  | derr (e : DecErr)
deriving DecidableEq, Repr

/-- `Stream for Decoder::poll` (lines 200–216): in `Head`, run `read_head`;
on success transition to `Data(n)` and run `read_data`; a produced frame
resets the state to `Head`.  Pending and errors leave the state where the
code leaves `self.state`. -/
def pollDec (b : Builder) (st : ReadState) (buf : ByteBuf) (sc : List Ev) :
    PollRes × ReadState × ByteBuf × List Ev :=
  match st with
  | .head =>
    match readHead b buf sc with
    | (.gotLen n, buf', sc') =>
      match readData n buf' sc' with
      | (.frame f, buf'', sc'') => (.frame f, .head, buf'', sc'')
      | (.notReady, buf'', sc'') => (.notReady, .data n, buf'', sc'')
      | (.derr e, buf'', sc'') => (.derr e, .data n, buf'', sc'')
    | (.eos, buf', sc') => (.eos, .head, buf', sc')
    | (.notReady, buf', sc') => (.notReady, .head, buf', sc')
    | (.derr e, buf', sc') => (.derr e, .head, buf', sc')
  | .data n =>
    match readData n buf sc with
    | (.frame f, buf', sc') => (.frame f, .head, buf', sc')
    | (.notReady, buf', sc') => (.notReady, .data n, buf', sc')
    | (.derr e, buf', sc') => (.derr e, .data n, buf', sc')

/-- Drive the decoder with repeated polls (the external driver of §5),
collecting frames until end-of-sequence or an error; `none` means the fuel
ran out before the run settled.  The result pairs the decoded frame sequence
with the terminal outcome (`none` = clean end, `some e` = error). -/
def decodeAll (b : Builder) :
    Nat → ReadState → ByteBuf → List Ev → Option (List (List Nat) × Option DecErr)
  | 0, _, _, _ => none
  | fuel + 1, st, buf, sc =>
    match pollDec b st buf sc with
    | (.frame f, st', buf', sc') =>
      match decodeAll b fuel st' buf' sc' with
      | none => none
      | some (fs, t) => some (f :: fs, t)
    | (.eos, _, _, _) => some ([], none)
    | (.derr e, _, _, _) => some ([], some e)
    | (.notReady, st', buf', sc') => decodeAll b fuel st' buf' sc'

/-- Decode a channel script from a fresh decoder. -/
def decodeStream (b : Builder) (fuel : Nat) (sc : List Ev) :
    Option (List (List Nat) × Option DecErr) :=
  decodeAll b fuel .head ByteBuf.new sc

/-- Terminal outcome of a run of the reserve-faithful decoder: clean
end-of-sequence, a returned `io::Error`, or the abort of line 159 (the
underflowing `usize` subtraction: a panic under debug assertions; under the
wrapping convention a `reserve(2^64 - 1)` that no buffer can satisfy, an
unconditional capacity-overflow abort in the `bytes` crate). -/
inductive DecTerm
  | clean
  | failed (e : DecErr)
  | aborted
deriving DecidableEq, Repr

/-- Result of `read_head` in the reserve-faithful model (`readHeadF`). -/
inductive HeadResF
  | gotLen (n : Nat)
  | eos
  | notReady
  | derr (e : DecErr)
  | reserveAbort
deriving DecidableEq, Repr

/-- The enough-bytes return of `readHeadF`, mirroring `headParsed`. -/
def headParsedF (b : Builder) (buf : ByteBuf) (sc : List Ev) : HeadResF × ByteBuf × List Ev :=
  match parseHead b buf with
  | (.ok n, buf') => (.gotLen n, buf', sc)
  | (.error e, buf') => (.derr e, buf', sc)

/-- `Decoder::read_head` including line 159: each loop iteration with too
few bytes buffered first evaluates `rem = length_field_len - buf.len()` and
reserves that much before the read attempt.  Whenever more than
`length_field_len` bytes are buffered the subtraction underflows
(`Builder.headReserveRem`, see C2) and the run aborts — before the read, so
the script is left unconsumed.  `readHead` is this same loop with the
reserve's effect unmodelled, i.e. conditional on the read attempt being
reached; the two coincide whenever the abort cannot fire
(`readHeadF_eq_readHead`). -/
def readHeadF (b : Builder) (buf : ByteBuf) : List Ev → HeadResF × ByteBuf × List Ev
  | [] =>
    if b.num_head_bytes ≤ buf.len then headParsedF b buf []
    else if b.length_field_len < buf.len then (.reserveAbort, buf, [])
    else (.notReady, buf, [])
  | .pend :: r =>
    if b.num_head_bytes ≤ buf.len then headParsedF b buf (.pend :: r)
    else if b.length_field_len < buf.len then (.reserveAbort, buf, .pend :: r)
    else (.notReady, buf, r)
  | .fail :: r =>
    if b.num_head_bytes ≤ buf.len then headParsedF b buf (.fail :: r)
    else if b.length_field_len < buf.len then (.reserveAbort, buf, .fail :: r)
    else (.derr .ioFailure, buf, r)
  | .chunk c :: r =>
    if b.num_head_bytes ≤ buf.len then headParsedF b buf (.chunk c :: r)
    else if b.length_field_len < buf.len then (.reserveAbort, buf, .chunk c :: r)
    else if c.isEmpty then
      if buf.isEmpty then (.eos, buf, r) else (.derr .truncHeader, buf, r)
    else readHeadF b (buf.append c) r

/-- Result of one poll of the reserve-faithful decoder. -/
inductive PollResF
  | frame (f : List Nat)
  | eos
  | notReady
  | derr (e : DecErr)
  | abortRes
deriving DecidableEq, Repr

/-- `Stream::poll` over the reserve-faithful `read_head` (`read_data` has no
reserve of its own at lines 176–193 — the payload capacity was reserved with
the known amount `n` at line 153 — so it is shared with the plain model). -/
def pollDecF (b : Builder) (st : ReadState) (buf : ByteBuf) (sc : List Ev) :
    PollResF × ReadState × ByteBuf × List Ev :=
  match st with
  | .head =>
    match readHeadF b buf sc with
    | (.gotLen n, buf', sc') =>
      match readData n buf' sc' with
      | (.frame f, buf'', sc'') => (.frame f, .head, buf'', sc'')
      | (.notReady, buf'', sc'') => (.notReady, .data n, buf'', sc'')
      | (.derr e, buf'', sc'') => (.derr e, .data n, buf'', sc'')
    | (.eos, buf', sc') => (.eos, .head, buf', sc')
    | (.notReady, buf', sc') => (.notReady, .head, buf', sc')
    | (.derr e, buf', sc') => (.derr e, .head, buf', sc')
    | (.reserveAbort, buf', sc') => (.abortRes, .head, buf', sc')
  | .data n =>
    match readData n buf sc with
    | (.frame f, buf', sc') => (.frame f, .head, buf', sc')
    | (.notReady, buf', sc') => (.notReady, .data n, buf', sc')
    | (.derr e, buf', sc') => (.derr e, .data n, buf', sc')

/-- Drive the reserve-faithful decoder, collecting frames until a terminal
outcome; an abort ends the run where it stands. -/
def decodeAllF (b : Builder) :
    Nat → ReadState → ByteBuf → List Ev → Option (List (List Nat) × DecTerm)
  | 0, _, _, _ => none
  | fuel + 1, st, buf, sc =>
    match pollDecF b st buf sc with
    | (.frame f, st', buf', sc') =>
      match decodeAllF b fuel st' buf' sc' with
      | none => none
      | some (fs, t) => some (f :: fs, t)
    | (.eos, _, _, _) => some ([], .clean)
    | (.derr e, _, _, _) => some ([], .failed e)
    | (.abortRes, _, _, _) => some ([], .aborted)
    | (.notReady, st', buf', sc') => decodeAllF b fuel st' buf' sc'

/-- Decode a channel script from a fresh reserve-faithful decoder. -/
def decodeStreamF (b : Builder) (fuel : Nat) (sc : List Ev) :
    Option (List (List Nat) × DecTerm) :=
  decodeAllF b fuel .head ByteBuf.new sc

/-- Injection of plain `read_head` results into the reserve-faithful ones. -/
def headResInj : HeadRes → HeadResF
  | .gotLen n => .gotLen n
  | .eos => .eos
  | .notReady => .notReady
  | .derr e => .derr e

/-- Injection of plain poll results into the reserve-faithful ones. -/
def pollResInj : PollRes → PollResF
  | .frame f => .frame f
  | .eos => .eos
  | .notReady => .notReady
  | .derr e => .derr e

/-- Terminal outcome of a plain run, as a reserve-faithful terminal. -/
def termOf : Option DecErr → DecTerm
  | none => .clean
  | some e => .failed e

/-- `WriteState`: idle, flushing a header, or flushing a payload (remaining
bytes of each). -/
inductive WriteState
  | Ready
  | Head (h : List Nat) (d : List Nat)
  | Data (d : List Nat)
deriving DecidableEq, Repr

/-- One outcome of a `try_write_buf` attempt: pending, acceptance of up to
`k` bytes, or a hard error. -/
inductive WEv
  | pend
  | accept (k : Nat)
  | fail
deriving DecidableEq, Repr

/-- Result of `Sink::poll_complete`. -/
inductive PollW
  | ready
  | notReady
  | wfail
deriving DecidableEq, Repr

/-- The common write loop of `write_head`/`write_data` (lines 289–333):
while bytes remain, attempt one write per script event; a write may accept
any number of bytes up to what remains (zero is retried, not an error).
Returns the poll outcome, the unwritten remainder, the rest of the script,
and the bytes that went onto the wire. -/
def writeLoop (buf : List Nat) : List WEv → PollW × List Nat × List WEv × List Nat
  | [] =>
    if buf.isEmpty then (.ready, buf, [], [])
    else (.notReady, buf, [], [])
  | .pend :: r =>
    if buf.isEmpty then (.ready, buf, .pend :: r, [])
    else (.notReady, buf, r, [])
  | .fail :: r =>
    if buf.isEmpty then (.ready, buf, .fail :: r, [])
    else (.wfail, buf, r, [])
  | .accept k :: r =>
    if buf.isEmpty then (.ready, buf, .accept k :: r, [])
    else
      match writeLoop (buf.drop (min k buf.length)) r with
      | (p, b', s', w) => (p, b', s', buf.take (min k buf.length) ++ w)

/-- `poll_complete` from the `Data` phase: flush the payload, then `Ready`. -/
def pcData (d : List Nat) (sc : List WEv) : PollW × WriteState × List WEv × List Nat :=
  match writeLoop d sc with
  | (.ready, _, sc', w) => (.ready, .Ready, sc', w)
  | (.notReady, d', sc', w) => (.notReady, .Data d', sc', w)
  | (.wfail, d', sc', w) => (.wfail, .Data d', sc', w)

/-- `poll_complete` from the `Head` phase: flush the header, transition to
`Data`, and continue. -/
def pcHead (h d : List Nat) (sc : List WEv) : PollW × WriteState × List WEv × List Nat :=
  match writeLoop h sc with
  | (.ready, _, sc', w) =>
    match pcData d sc' with
    | (p, st, sc'', w2) => (p, st, sc'', w ++ w2)
  | (.notReady, h', sc', w) => (.notReady, .Head h' d, sc', w)
  | (.wfail, h', sc', w) => (.wfail, .Head h' d, sc', w)

/-- `Sink for Encoder::poll_complete` (lines 353–388). -/
def pollComplete : WriteState → List WEv → PollW × WriteState × List WEv × List Nat
  | .Ready, sc => (.ready, .Ready, sc, [])
  | .Head h d, sc => pcHead h d sc
  | .Data d, sc => pcData d sc

/-- Encoder-side failures: `frameTooLarge` is `InvalidInput "frame too big"`;
`lenNotRepresentable` models the `byteorder` assertion that `put_uint`'s
value must fit in the requested width (a panic, so no header bytes are
produced); `channelFail` propagates a channel write error. -/
inductive EncErr
  | frameTooLarge
  | lenNotRepresentable
  | channelFail
deriving DecidableEq, Repr

/-- `Encoder::set_head` (lines 269–285): reject payloads longer than
`max_frame_len`, then encode the raw payload length (no adjustment) into a
`length_field_len`-byte header in the configured order. -/
def setHead (b : Builder) (p : List Nat) : Except EncErr (List Nat × List Nat) :=
  if b.max_frame_len < p.length then .error .frameTooLarge
  else if p.length < 2 ^ (8 * b.length_field_len) then
    .ok (uintBytes b.length_field_order b.length_field_len p.length, p)
  else .error .lenNotRepresentable

/-- Result of `Sink::start_send`. -/
inductive SendRes
  | accepted
  | notReady
  | err (e : EncErr)
deriving DecidableEq, Repr

/-- `Sink for Encoder::start_send` (lines 340–351): first drive any
in-flight frame to completion; if that is still pending, hand the item back
(`AsyncSink::NotReady`); otherwise validate and install the new frame via
`set_head`. -/
def startSend (b : Builder) (st : WriteState) (sc : List WEv) (p : List Nat) :
    SendRes × WriteState × List WEv × List Nat :=
  match pollComplete st sc with
  | (.ready, st', sc', w) =>
    match setHead b p with
    | .ok (h, d) => (.accepted, .Head h d, sc', w)
    | .error e => (.err e, st', sc', w)
  | (.notReady, st', sc', w) => (.notReady, st', sc', w)
  | (.wfail, st', sc', w) => (.err .channelFail, st', sc', w)

/-- Bytes of the current in-flight frame still to be written. -/
def frameRem : WriteState → List Nat
  | .Ready => []
  | .Head h d => h ++ d
  | .Data d => d

/-- Position in the write cycle (`Head` strictly before `Data` strictly
before `Ready` within one frame). -/
def phaseIdx : WriteState → Nat
  | .Ready => 0
  | .Data _ => 1
  | .Head _ _ => 2

/-- The on-wire encoding of one payload under a configuration. -/
def wireFrame (b : Builder) (p : List Nat) : List Nat :=
  uintBytes b.length_field_order b.length_field_len p.length ++ p

/-- Drive the encoder through a sequence of `send` calls against an
always-ready channel that accepts up to `K` bytes per write, then flush;
the external driver of §5 on the write side. -/
def sendAll (b : Builder) (K : Nat) : WriteState → List (List Nat) → Except EncErr (List Nat)
  | st, [] =>
    match pollComplete st [.accept K, .accept K] with
    | (.ready, _, _, w) => .ok w
    | _ => .error .channelFail
  | st, p :: ps =>
    match startSend b st [.accept K, .accept K] p with
    | (.accepted, st', _, w) =>
      match sendAll b K st' ps with
      | .ok w2 => .ok (w ++ w2)
      | .error e => .error e
    | (.err e, _, _, _) => .error e
    | (.notReady, _, _, _) => .error .channelFail

/-- Encode a single payload to the wire via the real `send`/flush path. -/
def encodeOne (b : Builder) (p : List Nat) : Except EncErr (List Nat) :=
  sendAll b (p.length + 8) .Ready [p]

/-- Encode one payload, then feed the produced bytes (followed by channel
shutdown) to a fresh decoder built from the same configuration. -/
def roundTrip (b : Builder) (p : List Nat) : Option (List (List Nat) × Option DecErr) :=
  match encodeOne b p with
  | .ok w => decodeStream b 4 [Ev.chunk w, Ev.chunk []]
  | .error _ => none

/-! ### Byte-string lemmas -/

theorem leBytes_length (w v : Nat) : (leBytes w v).length = w := by
  induction w generalizing v with
  | zero => simp [leBytes]
  | succ w ih => simp [leBytes, ih]

theorem uintBytes_length (o : ByteOrder) (w v : Nat) : (uintBytes o w v).length = w := by
  cases o <;> simp [uintBytes, beBytes, leBytes_length]

theorem leVal_cons (a : Nat) (l : List Nat) : leVal (a :: l) = leVal l * 256 + a := rfl

theorem leVal_leBytes (w v : Nat) (hv : v < 2 ^ (8 * w)) : leVal (leBytes w v) = v := by
  induction w generalizing v with
  | zero =>
    simp only [Nat.mul_zero, pow_zero, Nat.lt_one_iff] at hv
    simp [leBytes, leVal, hv]
  | succ w ih =>
    have hp : (2 : Nat) ^ (8 * (w + 1)) = 2 ^ (8 * w) * 256 := by
      rw [Nat.mul_succ, pow_add]; norm_num
    have h2 : v / 256 < 2 ^ (8 * w) := by
      rw [Nat.div_lt_iff_lt_mul (by norm_num : 0 < 256)]
      omega
    rw [leBytes, leVal_cons, ih _ h2]
    omega

theorem beVal_reverse (l : List Nat) : beVal l.reverse = leVal l := by
  rw [beVal, List.foldl_reverse]; rfl

theorem uintValOf_uintBytes (o : ByteOrder) (w v : Nat) (hv : v < 2 ^ (8 * w)) :
    uintValOf o (uintBytes o w v) = v := by
  cases o with
  | BigEndian => rw [uintBytes, uintValOf, beBytes, beVal_reverse, leVal_leBytes w v hv]
  | LittleEndian => rw [uintBytes, uintValOf, leVal_leBytes w v hv]

theorem pow8_le_pow64 (w : Nat) (hw : w ≤ 8) : (2 : Nat) ^ (8 * w) ≤ 2 ^ 64 :=
  Nat.pow_le_pow_right (by norm_num) (by omega)

/-! ### Stepping lemmas for the decoder's read loops -/

theorem readHead_enough (b : Builder) (buf : ByteBuf) (sc : List Ev)
    (h : b.num_head_bytes ≤ buf.len) : readHead b buf sc = headParsed b buf sc := by
  cases sc with
  | nil => simp [readHead, h]
  | cons e r => cases e <;> simp [readHead, h]

theorem readHead_nil (b : Builder) (buf : ByteBuf)
    (h : buf.len < b.num_head_bytes) : readHead b buf [] = (.notReady, buf, []) := by
  simp [readHead, Nat.not_le.mpr h]

theorem readHead_pend (b : Builder) (buf : ByteBuf) (r : List Ev)
    (h : buf.len < b.num_head_bytes) :
    readHead b buf (.pend :: r) = (.notReady, buf, r) := by
  simp [readHead, Nat.not_le.mpr h]

theorem readHead_fail (b : Builder) (buf : ByteBuf) (r : List Ev)
    (h : buf.len < b.num_head_bytes) :
    readHead b buf (.fail :: r) = (.derr .ioFailure, buf, r) := by
  simp [readHead, Nat.not_le.mpr h]

theorem readHead_shutdown (b : Builder) (buf : ByteBuf) (r : List Ev)
    (h : buf.len < b.num_head_bytes) :
    readHead b buf (.chunk [] :: r) =
      ((if buf.isEmpty then HeadRes.eos else HeadRes.derr .truncHeader), buf, r) := by
  by_cases hb : buf.isEmpty <;> simp [readHead, Nat.not_le.mpr h, hb]

theorem readHead_chunk (b : Builder) (buf : ByteBuf) (c : List Nat) (r : List Ev)
    (h : buf.len < b.num_head_bytes) (hc : c ≠ []) :
    readHead b buf (.chunk c :: r) = readHead b (buf.append c) r := by
  simp [readHead, Nat.not_le.mpr h, hc]

theorem readData_enough (n : Nat) (buf : ByteBuf) (sc : List Ev) (h : n ≤ buf.len) :
    readData n buf sc = (.frame (buf.drainTo n).1, (buf.drainTo n).2, sc) := by
  cases sc with
  | nil => simp [readData, h]
  | cons e r => cases e <;> simp [readData, h]

theorem readData_nil (n : Nat) (buf : ByteBuf) (h : buf.len < n) :
    readData n buf [] = (.notReady, buf, []) := by
  simp [readData, Nat.not_le.mpr h]

theorem readData_pend (n : Nat) (buf : ByteBuf) (r : List Ev) (h : buf.len < n) :
    readData n buf (.pend :: r) = (.notReady, buf, r) := by
  simp [readData, Nat.not_le.mpr h]

theorem readData_fail (n : Nat) (buf : ByteBuf) (r : List Ev) (h : buf.len < n) :
    readData n buf (.fail :: r) = (.derr .ioFailure, buf, r) := by
  simp [readData, Nat.not_le.mpr h]

theorem readData_shutdown (n : Nat) (buf : ByteBuf) (r : List Ev) (h : buf.len < n) :
    readData n buf (.chunk [] :: r) = (.derr .truncPayload, buf, r) := by
  simp [readData, Nat.not_le.mpr h]

theorem readData_chunk (n : Nat) (buf : ByteBuf) (c : List Nat) (r : List Ev)
    (h : buf.len < n) (hc : c ≠ []) :
    readData n buf (.chunk c :: r) = readData n (buf.append c) r := by
  simp [readData, Nat.not_le.mpr h, hc]

/-! ### Encoder write-loop laws -/

theorem writeLoop_law (sc : List WEv) : ∀ buf : List Nat,
    buf = (writeLoop buf sc).2.2.2 ++ (writeLoop buf sc).2.1 ∧
    ((writeLoop buf sc).1 = .ready → (writeLoop buf sc).2.1 = []) := by
  induction sc with
  | nil =>
    intro buf
    by_cases hb : buf.isEmpty
    · simp [writeLoop, hb, List.isEmpty_iff.mp hb]
    · simp [writeLoop, hb]
  | cons e r ih =>
    intro buf
    cases e with
    | pend =>
      by_cases hb : buf.isEmpty
      · simp [writeLoop, hb, List.isEmpty_iff.mp hb]
      · simp [writeLoop, hb]
    | fail =>
      by_cases hb : buf.isEmpty
      · simp [writeLoop, hb, List.isEmpty_iff.mp hb]
      · simp [writeLoop, hb]
    | accept k =>
      by_cases hb : buf.isEmpty
      · simp [writeLoop, hb, List.isEmpty_iff.mp hb]
      · obtain ⟨ih1, ih2⟩ := ih (buf.drop (min k buf.length))
        rcases hw : writeLoop (buf.drop (min k buf.length)) r with ⟨p, b', s', w⟩
        rw [hw] at ih1 ih2
        constructor
        · simp only [writeLoop, hb, if_neg, Bool.false_eq_true, ite_false, hw]
          calc buf = buf.take (min k buf.length) ++ buf.drop (min k buf.length) :=
                (List.take_append_drop _ buf).symm
            _ = buf.take (min k buf.length) ++ (w ++ b') := by rw [← ih1]
            _ = (buf.take (min k buf.length) ++ w) ++ b' := by rw [List.append_assoc]
        · simp only [writeLoop, hb, if_neg, Bool.false_eq_true, ite_false, hw]
          exact ih2
-- `writeLoop` on an empty buffer returns immediately, leaving the script alone.
theorem writeLoop_nilbuf (sc : List WEv) : writeLoop ([] : List Nat) sc = (.ready, [], sc, []) := by
  cases sc with
  | nil => simp [writeLoop]
  | cons e r => cases e <;> simp [writeLoop]

theorem writeLoop_law' (sc : List WEv) (buf : List Nat) (p : PollW) (b' : List Nat)
    (s' : List WEv) (w : List Nat) (h : writeLoop buf sc = (p, b', s', w)) :
    buf = w ++ b' ∧ (p = .ready → b' = []) := by
  have hl := writeLoop_law sc buf
  rw [h] at hl
  simpa using hl

theorem pcData_law (d : List Nat) (sc : List WEv) :
    ∀ p st' sc' w, pcData d sc = (p, st', sc', w) →
      d = w ++ frameRem st' ∧ phaseIdx st' ≤ 1 ∧ (p = .ready → st' = .Ready) := by
  intro p st' sc' w h
  rcases hw : writeLoop d sc with ⟨q, d', s', wb⟩
  obtain ⟨hl1, hl2⟩ := writeLoop_law' sc d q d' s' wb hw
  cases q <;> simp only [pcData, hw] at h <;> cases h
  · have hnil : d' = [] := hl2 rfl
    subst hnil
    exact ⟨by simpa [frameRem] using hl1, by simp [phaseIdx], fun _ => rfl⟩
  · exact ⟨by simpa [frameRem] using hl1, by simp [phaseIdx], by intro hc; cases hc⟩
  · exact ⟨by simpa [frameRem] using hl1, by simp [phaseIdx], by intro hc; cases hc⟩

theorem pcHead_law (hd d : List Nat) (sc : List WEv) :
    ∀ p st' sc' w, pcHead hd d sc = (p, st', sc', w) →
      hd ++ d = w ++ frameRem st' ∧ phaseIdx st' ≤ 2 ∧ (p = .ready → st' = .Ready) := by
  intro p st' sc' w h
  rcases hw : writeLoop hd sc with ⟨q, h', s', wb⟩
  obtain ⟨hl1, hl2⟩ := writeLoop_law' sc hd q h' s' wb hw
  cases q
  · simp only [pcHead, hw] at h
    rcases hd2 : pcData d s' with ⟨p2, st2, sc2, w2⟩
    simp only [hd2] at h
    cases h
    obtain ⟨hda, hdb, hdc⟩ := pcData_law d s' p st' sc' w2 hd2
    refine ⟨?_, by omega, hdc⟩
    rw [hl1, hl2 rfl, hda]
    simp
  · simp only [pcHead, hw] at h
    cases h
    refine ⟨?_, by simp [phaseIdx], by intro hc; cases hc⟩
    rw [frameRem, ← List.append_assoc, ← hl1]
  · simp only [pcHead, hw] at h
    cases h
    refine ⟨?_, by simp [phaseIdx], by intro hc; cases hc⟩
    rw [frameRem, ← List.append_assoc, ← hl1]

theorem pollComplete_law (st : WriteState) (sc : List WEv) :
    ∀ p st' sc' w, pollComplete st sc = (p, st', sc', w) →
      frameRem st = w ++ frameRem st' ∧ phaseIdx st' ≤ phaseIdx st ∧
      (p = .ready → st' = .Ready) ∧
      (st = .Ready → st' = .Ready ∧ sc' = sc ∧ w = []) := by
  intro p st' sc' w h
  cases st with
  | Ready =>
    rw [pollComplete] at h; cases h
    exact ⟨rfl, le_refl _, fun _ => rfl, fun _ => ⟨rfl, rfl, rfl⟩⟩
  | Head hd d =>
    rw [pollComplete] at h
    obtain ⟨h1, h2, h3⟩ := pcHead_law hd d sc p st' sc' w h
    exact ⟨h1, h2, h3, by intro hc; cases hc⟩
  | Data d =>
    rw [pollComplete] at h
    obtain ⟨h1, h2, h3⟩ := pcData_law d sc p st' sc' w h
    exact ⟨h1, h2, h3, by intro hc; cases hc⟩

/-- A single sufficiently large write accepts the whole remaining buffer. -/
theorem writeLoop_flush (buf : List Nat) (k : Nat) (r : List WEv) (hk : buf.length ≤ k) :
    writeLoop buf (.accept k :: r) = (.ready, [], r, buf) ∨
    writeLoop buf (.accept k :: r) = (.ready, [], .accept k :: r, buf) := by
  by_cases hb : buf.isEmpty
  · right
    simp [writeLoop, hb, List.isEmpty_iff.mp hb]
  · left
    have hm : min k buf.length = buf.length := Nat.min_eq_right hk
    simp [writeLoop, hb, hm, List.drop_length, List.take_length, writeLoop_nilbuf]

theorem pcData_flush (d : List Nat) (K : Nat) (r : List WEv) (hd : d.length ≤ K) :
    ∃ s', pcData d (.accept K :: r) = (.ready, .Ready, s', d) := by
  rcases writeLoop_flush d K r hd with h | h
  · exact ⟨r, by simp [pcData, h]⟩
  · exact ⟨.accept K :: r, by simp [pcData, h]⟩

/-- Bound on the pieces of an in-flight frame, preserved by the `sendAll`
driver so that each flush phase completes within one accepted write. -/
def stBound (K : Nat) : WriteState → Prop
  | .Ready => True
  | .Head h d => h.length ≤ K ∧ d.length ≤ K
  | .Data d => d.length ≤ K

theorem pollComplete_flush (st : WriteState) (K : Nat) (hst : stBound K st) :
    ∃ s', pollComplete st [.accept K, .accept K] = (.ready, .Ready, s', frameRem st) := by
  cases st with
  | Ready => exact ⟨[.accept K, .accept K], rfl⟩
  | Head hd d =>
    obtain ⟨hh, hdl⟩ := hst
    rcases writeLoop_flush hd K [.accept K] hh with h | h
    · obtain ⟨s', hs⟩ := pcData_flush d K [] hdl
      exact ⟨s', by simp [pollComplete, pcHead, h, hs, frameRem]⟩
    · obtain ⟨s', hs⟩ := pcData_flush d K [.accept K] hdl
      exact ⟨s', by simp [pollComplete, pcHead, h, hs, frameRem]⟩
  | Data d =>
    obtain ⟨s', hs⟩ := pcData_flush d K [.accept K] hst
    exact ⟨s', by simp [pollComplete, hs, frameRem]⟩

theorem sendAll_flush (b : Builder) (K : Nat) (hf : b.length_field_len ≤ 8) (hK : 8 ≤ K) :
    ∀ (ps : List (List Nat)) (st : WriteState), stBound K st →
      (∀ q ∈ ps, q.length ≤ b.max_frame_len ∧ q.length < 2 ^ (8 * b.length_field_len) ∧
        q.length ≤ K) →
      sendAll b K st ps = .ok (frameRem st ++ (ps.map (wireFrame b)).flatten) := by
  intro ps
  induction ps with
  | nil =>
    intro st hst _
    obtain ⟨s', hs⟩ := pollComplete_flush st K hst
    simp [sendAll, hs]
  | cons p ps ih =>
    intro st hst hq
    obtain ⟨hq1, hq2, hq3⟩ := hq p (by simp)
    obtain ⟨s', hs⟩ := pollComplete_flush st K hst
    have hsh : setHead b p =
        .ok (uintBytes b.length_field_order b.length_field_len p.length, p) := by
      rw [setHead, if_neg (Nat.not_lt.mpr hq1), if_pos hq2]
    have hbound : stBound K (.Head (uintBytes b.length_field_order b.length_field_len p.length) p) := by
      refine ⟨?_, hq3⟩
      rw [uintBytes_length]
      omega
    have hrec := ih (.Head (uintBytes b.length_field_order b.length_field_len p.length) p)
      hbound (fun q hq' => hq q (by simp [hq']))
    simp [sendAll, startSend, hs, hsh, hrec, frameRem, wireFrame]

/-! ### Claim C5 -/

/-- C5: the write side only moves along the cycle
`Ready → WritingHeader → WritingPayload → Ready`:
every `poll_complete` writes a prefix of the in-flight frame's remaining
bytes and only advances the phase (`frameRem st = w ++ frameRem st'`,
`phaseIdx st' ≤ phaseIdx st`, and `Ready` is absorbing short of a `send`);
`start_send` installs a new frame only after the previous frame's bytes are
completely on the wire (`w = frameRem st`); consequently driving a sequence
of `send` calls writes exactly the concatenation of the encoded frames in
call order, with no interleaving. -/
theorem C5_write_cycle (b : Builder) :
    (∀ st sc p st' sc' w, pollComplete st sc = (p, st', sc', w) →
      frameRem st = w ++ frameRem st' ∧ phaseIdx st' ≤ phaseIdx st ∧
      (p = .ready → st' = .Ready) ∧
      (st = .Ready → st' = .Ready ∧ sc' = sc ∧ w = [])) ∧
    (∀ st sc p res st' sc' w, startSend b st sc p = (res, st', sc', w) →
      (res = .accepted →
        w = frameRem st ∧
        st' = .Head (uintBytes b.length_field_order b.length_field_len p.length) p) ∧
      (res ≠ .accepted →
        frameRem st = w ++ frameRem st' ∧ phaseIdx st' ≤ phaseIdx st)) ∧
    (∀ K ps, b.length_field_len ≤ 8 → 8 ≤ K →
      (∀ q ∈ ps, q.length ≤ b.max_frame_len ∧ q.length < 2 ^ (8 * b.length_field_len) ∧
        q.length ≤ K) →
      sendAll b K .Ready ps = .ok ((ps.map (wireFrame b)).flatten)) := by
  refine ⟨fun st sc p st' sc' w h => pollComplete_law st sc p st' sc' w h, ?_, ?_⟩
  · intro st sc p res st' sc' w h
    rcases hpc : pollComplete st sc with ⟨pw, st₀, sc₀, w₀⟩
    obtain ⟨hl1, hl2, hl3, _⟩ := pollComplete_law st sc pw st₀ sc₀ w₀ hpc
    cases pw with
    | ready =>
      simp only [startSend, hpc] at h
      rcases hsh : setHead b p with e | hp
      · simp only [hsh] at h
        cases h
        refine ⟨(by intro hc; cases hc), ?_⟩
        intro _
        exact ⟨hl1, hl2⟩
      · rcases hp with ⟨hh, hd⟩
        simp only [hsh] at h
        cases h
        constructor
        · intro _
          have hst₀ : st₀ = .Ready := hl3 rfl
          rw [hst₀, frameRem, List.append_nil] at hl1
          refine ⟨hl1.symm, ?_⟩
          rw [setHead] at hsh
          by_cases h1 : b.max_frame_len < p.length
          · rw [if_pos h1] at hsh; cases hsh
          · rw [if_neg h1] at hsh
            by_cases h2 : p.length < 2 ^ (8 * b.length_field_len)
            · rw [if_pos h2] at hsh
              cases hsh
              rfl
            · rw [if_neg h2] at hsh; cases hsh
        · intro hc
          exact absurd rfl hc
    | notReady =>
      simp only [startSend, hpc] at h
      cases h
      exact ⟨(by intro hc; cases hc), fun _ => ⟨hl1, hl2⟩⟩
    | wfail =>
      simp only [startSend, hpc] at h
      cases h
      exact ⟨(by intro hc; cases hc), fun _ => ⟨hl1, hl2⟩⟩
  · intro K ps hf hK hq
    have h := sendAll_flush b K hf hK ps .Ready trivial hq
    simpa [frameRem] using h

theorem C5_write_cycle_witness :
    sendAll Builder.new 20 .Ready [[1], [2]] = .ok [0, 0, 0, 1, 1, 0, 0, 0, 1, 2] := by
  have h := (C5_write_cycle Builder.new).2.2 20 [[1], [2]] (by decide) (by decide)
    (by intro q hq; fin_cases hq <;> refine ⟨by decide, by decide, by decide⟩)
  rw [h]
  rfl

/-! ### Claim C7 -/

/-- C7: a `send` whose payload exceeds `max_frame_len` is never accepted;
any bytes written during the call are a prefix of the previously accepted
frame's remaining bytes (none of the rejected payload is written); and when
the in-flight frame has been fully flushed — the only case in which the
validation is reached — the call fails with `FrameTooLarge`, leaving the
write state `Ready`, untouched by the rejection. -/
theorem C7_oversized_send (b : Builder) (st : WriteState) (sc : List WEv) (p : List Nat)
    (hp : b.max_frame_len < p.length) :
    ∀ res st' sc' w, startSend b st sc p = (res, st', sc', w) →
      res ≠ .accepted ∧
      frameRem st = w ++ frameRem st' ∧
      (res = .err .frameTooLarge → st' = .Ready ∧ w = frameRem st) ∧
      (∀ e, res = .err e → e = .frameTooLarge ∨ e = .channelFail) := by
  intro res st' sc' w h
  rcases hpc : pollComplete st sc with ⟨pw, st₀, sc₀, w₀⟩
  obtain ⟨hl1, hl2, hl3, _⟩ := pollComplete_law st sc pw st₀ sc₀ w₀ hpc
  cases pw with
  | ready =>
    have hsh : setHead b p = .error .frameTooLarge := by
      rw [setHead, if_pos hp]
    simp only [startSend, hpc, hsh, Prod.mk.injEq] at h
    obtain ⟨he1, he2, he3, he4⟩ := h
    have hr : st₀ = .Ready := hl3 rfl
    rw [← he1, ← he2, ← he4, hr]
    simp only [hr, frameRem, List.append_nil] at hl1
    refine ⟨(by intro hc; cases hc), (by simp [frameRem, hl1]),
      fun _ => ⟨rfl, hl1.symm⟩, (by intro e he; cases he; exact Or.inl rfl)⟩
  | notReady =>
    simp only [startSend, hpc] at h
    cases h
    exact ⟨(by intro hc; cases hc), hl1, (by intro hc; cases hc),
      (by intro e he; cases he)⟩
  | wfail =>
    simp only [startSend, hpc] at h
    cases h
    exact ⟨(by intro hc; cases hc), hl1, (by intro hc; cases hc),
      (by intro e he; cases he; exact Or.inr rfl)⟩

theorem C7_oversized_send_witness :
    startSend (Builder.new.set_max_frame_length 8) .Ready []
      [1, 2, 3, 4, 5, 6, 7, 8, 9] = (.err .frameTooLarge, .Ready, [], []) ∧
    SendRes.err EncErr.frameTooLarge ≠ SendRes.accepted ∧
    ([] : List Nat) = frameRem .Ready := by
  have h := C7_oversized_send (Builder.new.set_max_frame_length 8) .Ready []
    [1, 2, 3, 4, 5, 6, 7, 8, 9] (by decide) (.err .frameTooLarge) .Ready [] [] rfl
  exact ⟨rfl, h.1, (h.2.2.1 rfl).2⟩

/-! ### Claim C2 -/

/-- C2: the claim says the decoder, short of a full header, reserves exactly
`effective_header_len - buffered` (never negative).  The code (line 159)
instead computes `length_field_len - buf.len()`: with
`length_field_offset = 4` (so `effective_header_len = 8`) and 5 bytes
buffered it does not reserve the 3 missing bytes — the `usize` subtraction
`4 - 5` underflows (a panic under debug assertions, `2^64 - 1` wrapped), and
even with an empty buffer it reserves 4 where 8 header bytes are missing. -/
theorem C2_reserve_uses_field_len :
    (Builder.new.set_length_field_offset 4).num_head_bytes = 8 ∧
    (Builder.new.set_length_field_offset 4).headReserveRem 5 = 2 ^ 64 - 1 ∧
    (Builder.new.set_length_field_offset 4).num_head_bytes - 5 = 3 ∧
    (Builder.new.set_length_field_offset 4).headReserveRem 0 = 4 ∧
    (Builder.new.set_length_field_offset 4).num_head_bytes - 0 = 8 := by
  refine ⟨rfl, ?_, rfl, ?_, rfl⟩ <;> decide

/-! ### Claim C3 -/

/-- C3: a zero-byte transfer while awaiting a header is a clean
end-of-sequence exactly when the buffer is empty and `TruncatedHeader`
otherwise; a zero-byte transfer while awaiting payload bytes is always
`TruncatedPayload`. -/
theorem C3_zero_byte_read (b : Builder) (buf : ByteBuf) (sc : List Ev) (n : Nat) :
    (buf.len < b.num_head_bytes →
      readHead b buf (.chunk [] :: sc) =
        ((if buf.isEmpty then HeadRes.eos else HeadRes.derr .truncHeader), buf, sc)) ∧
    (buf.len < n →
      readData n buf (.chunk [] :: sc) = (.derr .truncPayload, buf, sc)) :=
  ⟨fun h => readHead_shutdown b buf sc h, fun h => readData_shutdown n buf sc h⟩

theorem C3_zero_byte_read_witness :
    readHead Builder.new ⟨[0, 0], 0⟩ [.chunk []] = (.derr .truncHeader, ⟨[0, 0], 0⟩, []) ∧
    readHead Builder.new ByteBuf.new [.chunk []] = (.eos, ByteBuf.new, []) ∧
    readData 9 ⟨[97, 98], 0⟩ [.chunk []] = (.derr .truncPayload, ⟨[97, 98], 0⟩, []) := by
  refine ⟨?_, ?_, ?_⟩
  · have h := (C3_zero_byte_read Builder.new ⟨[0, 0], 0⟩ [] 9).1 (by decide)
    simpa using h
  · have h := (C3_zero_byte_read Builder.new ByteBuf.new [] 9).1 (by decide)
    simpa using h
  · exact (C3_zero_byte_read Builder.new ⟨[97, 98], 0⟩ [] 9).2 (by decide)

/-! ### Claim C4 -/

/-- C4: a parsed length above `max_frame_len` fails with `FrameTooLarge`
before the adjustment is applied (the outcome is the same for every
adjustment value) and before any payload byte is read or buffered (the
channel script is returned untouched); otherwise the adjustment is applied
with overflow checking — a negative adjustment whose magnitude exceeds the
value, or a positive one pushing the sum past the `usize` domain, fails with
`LengthOverflow`.  This holds for every `Int` adjustment; in particular for
`isize::MIN` the source's `(-adj) as usize` wraps-then-reinterprets to the
magnitude `2^63`, which is what `(-adj).toNat` denotes. -/
theorem C4_length_validation (b : Builder) (buf : ByteBuf) (sc : List Ev) :
    (b.max_frame_len < headVal b buf →
      (parseHead b buf).1 = .error .frameTooLarge ∧
      (∀ a : Int, (parseHead (b.set_length_adjustment a) buf).1 = .error .frameTooLarge) ∧
      (b.num_head_bytes ≤ buf.len →
        readHead b buf sc = (.derr .frameTooLarge, (parseHead b buf).2, sc))) ∧
    (headVal b buf ≤ b.max_frame_len →
      (b.length_adjustment < 0 →
        (headVal b buf < (-b.length_adjustment).toNat →
          (parseHead b buf).1 = .error .lengthOverflow) ∧
        ((-b.length_adjustment).toNat ≤ headVal b buf →
          (parseHead b buf).1 = .ok (headVal b buf - (-b.length_adjustment).toNat))) ∧
      (0 ≤ b.length_adjustment →
        (2 ^ 64 ≤ headVal b buf + b.length_adjustment.toNat →
          (parseHead b buf).1 = .error .lengthOverflow) ∧
        (headVal b buf + b.length_adjustment.toNat < 2 ^ 64 →
          (parseHead b buf).1 = .ok (headVal b buf + b.length_adjustment.toNat)))) := by
  constructor
  · intro h
    refine ⟨?_, ?_, ?_⟩
    · simp only [parseHead, headVal] at *
      rw [if_pos h]
    · intro a
      simp only [parseHead, headVal, Builder.set_length_adjustment] at *
      rw [if_pos h]
    · intro hlen
      rw [readHead_enough b buf sc hlen, headParsed]
      simp only [parseHead, headVal] at *
      rw [if_pos h]
  · intro h
    constructor
    · intro hneg
      constructor
      · intro hlt
        simp only [parseHead, headVal, adjustLen] at *
        rw [if_neg (Nat.not_lt.mpr h), if_pos hneg, if_pos hlt]
      · intro hge
        simp only [parseHead, headVal, adjustLen] at *
        rw [if_neg (Nat.not_lt.mpr h), if_pos hneg, if_neg (Nat.not_lt.mpr hge)]
    · intro hpos
      constructor
      · intro hov
        simp only [parseHead, headVal, adjustLen] at *
        rw [if_neg (Nat.not_lt.mpr h), if_neg (Int.not_lt.mpr hpos), if_neg (Nat.not_lt.mpr hov)]
      · intro hok
        simp only [parseHead, headVal, adjustLen] at *
        rw [if_neg (Nat.not_lt.mpr h), if_neg (Int.not_lt.mpr hpos), if_pos hok]

theorem C4_length_validation_witness :
    (parseHead (Builder.new.set_max_frame_length 8) ⟨[0, 0, 0, 9], 0⟩).1 =
      .error .frameTooLarge ∧
    (parseHead (Builder.new.set_length_adjustment (-5)) ⟨[0, 0, 0, 3], 0⟩).1 =
      .error .lengthOverflow ∧
    (parseHead (Builder.new.set_length_adjustment (-(2 ^ 63))) ⟨[0, 0, 0, 3], 0⟩).1 =
      .error .lengthOverflow ∧
    (parseHead (Builder.new.set_length_adjustment 2) ⟨[0, 0, 0, 3], 0⟩).1 = .ok 5 := by
  refine ⟨?_, ?_, ?_, ?_⟩
  · exact ((C4_length_validation (Builder.new.set_max_frame_length 8)
      ⟨[0, 0, 0, 9], 0⟩ []).1 (by decide)).1
  · exact (((C4_length_validation (Builder.new.set_length_adjustment (-5))
      ⟨[0, 0, 0, 3], 0⟩ []).2 (by decide)).1 (by decide)).1 (by decide)
  · exact (((C4_length_validation (Builder.new.set_length_adjustment (-(2 ^ 63)))
      ⟨[0, 0, 0, 3], 0⟩ []).2 (by decide)).1 (by decide)).1 (by decide)
  · have h := (((C4_length_validation (Builder.new.set_length_adjustment 2)
      ⟨[0, 0, 0, 3], 0⟩ []).2 (by decide)).2 (by decide)).2 (by decide)
    simpa using h

/-! ### Claim C10 -/

/-- C10: when the buffer already holds a complete header and the full
adjusted payload, one poll yields the frame with the channel script returned
untouched — no read attempt is made; likewise in the `Data` state when
enough bytes are buffered. -/
theorem C10_buffered_frame_no_read (b : Builder) (buf buf' : ByteBuf) (sc : List Ev) (n : Nat) :
    (b.num_head_bytes ≤ buf.len →
      parseHead b buf = (.ok n, buf') →
      n ≤ buf'.len →
      pollDec b .head buf sc = (.frame (buf'.drainTo n).1, .head, (buf'.drainTo n).2, sc)) ∧
    (∀ m (buf₂ : ByteBuf) (sc₂ : List Ev), m ≤ buf₂.len →
      pollDec b (.data m) buf₂ sc₂ =
        (.frame (buf₂.drainTo m).1, .head, (buf₂.drainTo m).2, sc₂)) := by
  constructor
  · intro hlen hparse hdata
    have h1 : readHead b buf sc = (.gotLen n, buf', sc) := by
      rw [readHead_enough b buf sc hlen, headParsed, hparse]
    simp only [pollDec, h1, readData_enough n buf' sc hdata]
  · intro m buf₂ sc₂ hm
    simp only [pollDec, readData_enough m buf₂ sc₂ hm]

theorem C10_buffered_frame_no_read_witness :
    pollDec Builder.new .head ⟨[0, 0, 0, 1, 97, 99], 0⟩ [.fail] =
      (.frame [97], .head, ⟨[99], 0⟩, [.fail]) ∧
    pollDec Builder.new (.data 1) ⟨[98, 99], 0⟩ [.fail] =
      (.frame [98], .head, ⟨[99], 0⟩, [.fail]) := by
  constructor
  · have h := (C10_buffered_frame_no_read Builder.new ⟨[0, 0, 0, 1, 97, 99], 0⟩
      ⟨[97, 99], 0⟩ [.fail] 1).1 (by decide) (by decide) (by decide)
    simpa using h
  · have h := (C10_buffered_frame_no_read Builder.new ByteBuf.new ByteBuf.new [] 0).2
      1 ⟨[98, 99], 0⟩ [.fail] (by decide)
    simpa using h

/-! ### Claim C9 -/

/-- C9: the builder's byte-order setter (modelled from the spec, see
`Builder.set_byte_order`) selects the order the decoder parses and the
encoder writes the length field in; a default-built configuration is
big-endian.  The wire-level conjuncts replay the repository's own
little-endian and big-endian test vectors through the full decode and
encode paths. -/
theorem C9_byte_order :
    Builder.new.length_field_order = .BigEndian ∧
    (∀ o : ByteOrder, (Builder.new.set_byte_order o).length_field_order = o) ∧
    decodeStream (Builder.new.set_byte_order .LittleEndian) 3
      [.chunk [9, 0, 0, 0, 97, 98, 99, 100, 101, 102, 103, 104, 105], .chunk []] =
      some ([[97, 98, 99, 100, 101, 102, 103, 104, 105]], none) ∧
    encodeOne (Builder.new.set_byte_order .LittleEndian)
      [97, 98, 99, 100, 101, 102, 103, 104, 105] =
      .ok [9, 0, 0, 0, 97, 98, 99, 100, 101, 102, 103, 104, 105] ∧
    decodeStream Builder.new 3
      [.chunk [0, 0, 0, 9, 97, 98, 99, 100, 101, 102, 103, 104, 105], .chunk []] =
      some ([[97, 98, 99, 100, 101, 102, 103, 104, 105]], none) ∧
    encodeOne Builder.new [97, 98, 99, 100, 101, 102, 103, 104, 105] =
      .ok [0, 0, 0, 9, 97, 98, 99, 100, 101, 102, 103, 104, 105] := by
  exact ⟨rfl, fun o => rfl, by decide, by decide, by decide, by decide⟩

/-! ### Claim C6 -/

/-- C6 (amended): for every payload whose length fits the configured field
width, `set_head` emits a header of exactly `length_field_len` bytes holding
the raw payload length in the configured order, and the adjustment is never
applied on the encode side.  (The width hypothesis is forced by
`C6_unrepresentable_length`.) -/
theorem C6_encoder_writes_raw_length (b : Builder) (p : List Nat) (a : Int)
    (h1 : p.length ≤ b.max_frame_len) (h2 : p.length < 2 ^ (8 * b.length_field_len)) :
    setHead b p = .ok (uintBytes b.length_field_order b.length_field_len p.length, p) ∧
    (uintBytes b.length_field_order b.length_field_len p.length).length =
      b.length_field_len ∧
    setHead (b.set_length_adjustment a) p = setHead b p := by
  refine ⟨?_, uintBytes_length _ _ _, rfl⟩
  rw [setHead, if_neg (Nat.not_lt.mpr h1), if_pos h2]

theorem C6_encoder_writes_raw_length_witness :
    setHead Builder.new [97] = .ok ([0, 0, 0, 1], [97]) ∧
    setHead (Builder.new.set_length_adjustment 5) [97] = setHead Builder.new [97] := by
  have h := C6_encoder_writes_raw_length Builder.new [97] 5 (by decide) (by decide)
  exact ⟨by rw [h.1]; rfl, h.2.2⟩

/-- C6 counterexample: with a 1-byte length field a 256-byte payload passes
the `max_frame_len` check (so `send` accepts it), yet no header of
`length_field_len` bytes holding the raw count is produced —
`put_uint` hits the `byteorder` width assertion instead of emitting a
header, so the claim's "for every payload accepted by send" fails. -/
theorem C6_unrepresentable_length :
    (List.replicate 256 0).length ≤ (Builder.new.set_length_field_length 1).max_frame_len ∧
    setHead (Builder.new.set_length_field_length 1) (List.replicate 256 0) =
      .error .lenNotRepresentable := by
  constructor
  · rw [List.length_replicate]
    norm_num [Builder.set_length_field_length, Builder.new]
  · rw [setHead, List.length_replicate]
    norm_num [Builder.set_length_field_length, Builder.new]

/-! ### Claim C1 -/

/-- A full `send` + flush against an always-ready channel puts exactly
`length field ++ payload` on the wire. -/
theorem encodeOne_ok (b : Builder) (p : List Nat)
    (hf8 : b.length_field_len ≤ 8)
    (h1 : p.length ≤ b.max_frame_len) (h2 : p.length < 2 ^ (8 * b.length_field_len)) :
    encodeOne b p = .ok (wireFrame b p) := by
  have h := sendAll_flush b (p.length + 8) hf8 (by omega) [p] .Ready trivial ?_
  · rw [encodeOne, h]
    simp [frameRem]
  · intro q hq
    rw [List.mem_singleton] at hq
    subst hq
    exact ⟨h1, h2, by omega⟩

/-- Decoding one wire frame from a same-configuration decoder (for the
layouts where the encoder's output matches the decoder's expected header:
zero offset, zero adjustment, derived or equal explicit skip). -/
theorem decode_wireFrame (b : Builder) (p : List Nat)
    (hoff : b.length_field_offset = 0) (hadj : b.length_adjustment = 0)
    (hskip : b.num_skip = none ∨ b.num_skip = some b.length_field_len)
    (hf1 : 1 ≤ b.length_field_len) (hf8 : b.length_field_len ≤ 8)
    (h1 : p.length ≤ b.max_frame_len) (h2 : p.length < 2 ^ (8 * b.length_field_len)) :
    decodeStream b 4 [Ev.chunk (wireFrame b p), Ev.chunk []] = some ([p], none) := by
  have hlen := uintBytes_length b.length_field_order b.length_field_len p.length
  have hhb : b.num_head_bytes = b.length_field_len := by
    rcases hskip with hs | hs <;> simp [Builder.num_head_bytes, hoff, hs]
  have hsk : b.effective_num_skip = b.length_field_len := by
    rcases hskip with hs | hs <;> simp [Builder.effective_num_skip, hoff, hs]
  have hwlen : (wireFrame b p).length = b.length_field_len + p.length := by
    simp [wireFrame, hlen]
  have hwne : wireFrame b p ≠ [] := by
    intro hnil
    rw [hnil] at hwlen
    simp at hwlen
    omega
  have hlt : p.length < 2 ^ 64 := lt_of_lt_of_le h2 (pow8_le_pow64 _ hf8)
  have hlt' : p.length < 18446744073709551616 := by
    calc p.length < 2 ^ 64 := hlt
      _ = 18446744073709551616 := by norm_num
  have hadj' : adjustLen b p.length = some p.length := by
    rw [adjustLen, hadj]
    simp [hlt']
  have hp1 : parseHead b ⟨wireFrame b p, 0⟩ = (.ok p.length, ⟨p, 0⟩) := by
    have hv : ByteBuf.getUintVal ⟨wireFrame b p, 0⟩ b.length_field_order b.length_field_len
        = p.length := by
      rw [ByteBuf.getUintVal, ByteBuf.readBytes]
      simp only [List.drop_zero, wireFrame]
      rw [List.take_left' hlen, uintValOf_uintBytes _ _ _ h2]
    simp only [parseHead, hoff, ByteBuf.advance, Nat.add_zero]
    rw [hv, if_neg (Nat.not_lt.mpr h1), hadj', hsk]
    simp only [ByteBuf.drainTo, wireFrame, List.drop_left' hlen]
    simp
  have hb1 : ByteBuf.new.append (wireFrame b p) = ⟨wireFrame b p, 0⟩ := by
    simp [ByteBuf.new, ByteBuf.append]
  have hrh : readHead b ⟨wireFrame b p, 0⟩ [Ev.chunk []] =
      (.gotLen p.length, ⟨p, 0⟩, [Ev.chunk []]) := by
    rw [readHead_enough b _ _ (by simp [ByteBuf.len, hwlen, hhb]), headParsed, hp1]
  have hrd : readData p.length (⟨p, 0⟩ : ByteBuf) [Ev.chunk []] =
      (.frame p, ⟨[], 0⟩, [Ev.chunk []]) := by
    rw [readData_enough p.length ⟨p, 0⟩ [Ev.chunk []] (by simp [ByteBuf.len])]
    simp [ByteBuf.drainTo]
  have hpoll1 : pollDec b .head ByteBuf.new [Ev.chunk (wireFrame b p), Ev.chunk []] =
      (.frame p, .head, ⟨[], 0⟩, [Ev.chunk []]) := by
    have hsmall : ByteBuf.new.len < b.num_head_bytes := by
      simp [ByteBuf.new, ByteBuf.len, hhb]
      omega
    rw [pollDec, readHead_chunk b ByteBuf.new (wireFrame b p) [Ev.chunk []] hsmall hwne,
      hb1, hrh]
    simp only [hrd]
  have hpoll2 : pollDec b .head ⟨[], 0⟩ [Ev.chunk []] = (.eos, .head, ⟨[], 0⟩, []) := by
    have hsmall : (⟨[], 0⟩ : ByteBuf).len < b.num_head_bytes := by
      simp [ByteBuf.len, hhb]
      omega
    rw [pollDec, readHead_shutdown b ⟨[], 0⟩ [] hsmall]
    simp [ByteBuf.isEmpty, ByteBuf.len]
  rw [decodeStream]
  show decodeAll b (3 + 1) .head ByteBuf.new [Ev.chunk (wireFrame b p), Ev.chunk []] =
    some ([p], none)
  simp only [decodeAll, hpoll1, hpoll2]

/-- C1 (amended): the encode → decode round trip returns the original
payload for every configuration in which the encoder's output layout
matches the decoder's expected layout — `length_field_offset = 0`,
`length_adjustment = 0`, `num_skip` unset or equal to `length_field_len`, a
valid field width, and a payload that fits both `max_frame_len` and the
field width.  For other configurations the two sides are not
wire-compatible (`C1_adjustment_breaks_roundtrip`): the encoder writes no
offset bytes and never applies the adjustment, so the decoder misreads its
own encoder's output. -/
theorem C1_roundtrip (b : Builder) (p : List Nat)
    (hoff : b.length_field_offset = 0) (hadj : b.length_adjustment = 0)
    (hskip : b.num_skip = none ∨ b.num_skip = some b.length_field_len)
    (hf1 : 1 ≤ b.length_field_len) (hf8 : b.length_field_len ≤ 8)
    (h1 : p.length ≤ b.max_frame_len) (h2 : p.length < 2 ^ (8 * b.length_field_len)) :
    roundTrip b p = some ([p], none) := by
  rw [roundTrip, encodeOne_ok b p hf8 h1 h2]
  exact decode_wireFrame b p hoff hadj hskip hf1 hf8 h1 h2

theorem C1_roundtrip_witness : roundTrip Builder.new [97] = some ([[97]], none) :=
  C1_roundtrip Builder.new [97] rfl rfl (Or.inl rfl) (by norm_num [Builder.new])
    (by norm_num [Builder.new]) (by norm_num [Builder.new]) (by norm_num [Builder.new])

/-! ### Claim C8: fragmentation independence -/

theorem ByteBuf.append_nil (buf : ByteBuf) : buf.append [] = buf := by
  simp [ByteBuf.append]

theorem ByteBuf.append_append (buf : ByteBuf) (c d : List Nat) :
    (buf.append c).append d = buf.append (c ++ d) := by
  simp [ByteBuf.append]

theorem ByteBuf.len_le_append (buf : ByteBuf) (c : List Nat) :
    buf.len ≤ (buf.append c).len := by
  simp only [ByteBuf.len, ByteBuf.append, List.length_append]
  omega

theorem drainTo_append (n : Nat) (buf : ByteBuf) (c : List Nat) (h : n ≤ buf.len) :
    (buf.append c).drainTo n = ((buf.drainTo n).1, (buf.drainTo n).2.append c) := by
  have hm : n ≤ buf.mem.length := le_trans h (Nat.sub_le _ _)
  simp [ByteBuf.drainTo, ByteBuf.append, List.take_append_of_le_length hm,
    List.drop_append_of_le_length hm]

/-- Parsing the head ignores bytes beyond the header, so appending a later
chunk commutes with the parse once enough bytes are buffered. -/
theorem parseHead_append (b : Builder) (buf : ByteBuf) (c : List Nat)
    (hh : b.num_head_bytes ≤ buf.len) :
    parseHead b (buf.append c) = ((parseHead b buf).1, (parseHead b buf).2.append c) := by
  have hofl : b.length_field_offset + b.length_field_len ≤ buf.len :=
    le_trans (le_max_left _ _) hh
  rw [ByteBuf.len] at hofl
  have hcase : b.length_field_offset + b.length_field_len = 0 ∨
      buf.rd + b.length_field_offset + b.length_field_len ≤ buf.mem.length := by omega
  have hsk : b.effective_num_skip ≤ buf.mem.length := by
    have h1 : b.effective_num_skip ≤ b.num_head_bytes := by
      rcases hs : b.num_skip with _ | k <;>
        simp [Builder.effective_num_skip, Builder.num_head_bytes, hs]
    have h2 : b.num_head_bytes ≤ buf.mem.length := le_trans hh (Nat.sub_le _ _)
    omega
  have hv : ByteBuf.getUintVal ((buf.append c).advance b.length_field_offset)
        b.length_field_order b.length_field_len =
      ByteBuf.getUintVal (buf.advance b.length_field_offset)
        b.length_field_order b.length_field_len := by
    rw [ByteBuf.getUintVal, ByteBuf.getUintVal, ByteBuf.readBytes, ByteBuf.readBytes]
    simp only [ByteBuf.advance, ByteBuf.append]
    rcases hcase with h0 | hle
    · have hw0 : b.length_field_len = 0 := by omega
      simp [hw0]
    · rw [List.drop_append_of_le_length (by omega),
        List.take_append_of_le_length (by rw [List.length_drop]; omega)]
  rcases hp : parseHead b buf with ⟨res, buf1⟩
  simp only [parseHead] at hp ⊢
  rw [hv]
  by_cases h1 : b.max_frame_len <
      ByteBuf.getUintVal (buf.advance b.length_field_offset)
        b.length_field_order b.length_field_len
  · rw [if_pos h1] at hp ⊢
    cases hp
    rfl
  · rw [if_neg h1] at hp ⊢
    rcases hadj : adjustLen b (ByteBuf.getUintVal (buf.advance b.length_field_offset)
        b.length_field_order b.length_field_len) with _ | n
    · simp only [hadj] at hp ⊢
      cases hp
      rfl
    · simp only [hadj] at hp ⊢
      cases hp
      simp only [ByteBuf.drainTo, ByteBuf.advance, ByteBuf.append]
      rw [List.drop_append_of_le_length hsk]

/-- Out-of-fuel-monotonicity: a settled run stays settled with more fuel. -/
theorem decodeAll_mono (b : Builder) : ∀ (f : Nat) (st : ReadState) (buf : ByteBuf)
    (sc : List Ev) (r : List (List Nat) × Option DecErr),
    decodeAll b f st buf sc = some r → decodeAll b (f + 1) st buf sc = some r := by
  intro f
  induction f with
  | zero =>
    intro st buf sc r h
    rw [decodeAll] at h
    exact absurd h (by simp)
  | succ f ih =>
    intro st buf sc r h
    rw [decodeAll] at h ⊢
    rcases hp : pollDec b st buf sc with ⟨res, st', buf', sc'⟩
    cases res with
    | frame f₀ =>
      simp only [hp] at h ⊢
      rcases hrec : decodeAll b f st' buf' sc' with _ | ⟨fs, t⟩
      · simp only [hrec] at h
        exact absurd h (by simp)
      · simp only [hrec] at h
        rw [ih st' buf' sc' (fs, t) hrec]
        exact h
    | eos =>
      simp only [hp] at h ⊢
      exact h
    | derr e =>
      simp only [hp] at h ⊢
      exact h
    | notReady =>
      simp only [hp] at h ⊢
      exact ih st' buf' sc' r h

/-- Re-polling after a suspension recomputes to the same point: a poll from
`Head` whose parse succeeds behaves like a poll from the resulting `Data`
state (spec §5's lost-work-free resumption). -/
theorem pollDec_resume (b : Builder) (buf buf1 : ByteBuf) (n : Nat)
    (hh : b.num_head_bytes ≤ buf.len) (hp : parseHead b buf = (.ok n, buf1))
    (sc : List Ev) : pollDec b .head buf sc = pollDec b (.data n) buf1 sc := by
  have h1 : readHead b buf sc = (.gotLen n, buf1, sc) := by
    rw [readHead_enough b buf sc hh, headParsed, hp]
  simp only [pollDec, h1]

theorem decodeAll_congr (b : Builder) (f : Nat) (st st2 : ReadState)
    (buf buf2 : ByteBuf) (sc sc2 : List Ev)
    (h : pollDec b st buf sc = pollDec b st2 buf2 sc2) :
    decodeAll b (f + 1) st buf sc = decodeAll b (f + 1) st2 buf2 sc2 := by
  rw [decodeAll, decodeAll, h]

/-- A chunk at the head of the script can be absorbed into the buffer
without changing the decode (same fuel, same result): the decoder's control
depends only on whether enough bytes are buffered, never on how they
arrived. -/
theorem decodeAll_absorb (b : Builder) : ∀ (f : Nat) (st : ReadState) (buf : ByteBuf)
    (c : List Nat) (sc : List Ev), c ≠ [] →
    decodeAll b f st buf (Ev.chunk c :: sc) = decodeAll b f st (buf.append c) sc := by
  intro f
  induction f with
  | zero => intros; rfl
  | succ f ih =>
    intro st buf c sc hc
    cases st with
    | head =>
      by_cases hh : b.num_head_bytes ≤ buf.len
      · have hh2 : b.num_head_bytes ≤ (buf.append c).len :=
          le_trans hh (ByteBuf.len_le_append buf c)
        rcases hp : parseHead b buf with ⟨res, buf1⟩
        have hp2 : parseHead b (buf.append c) = (res, buf1.append c) := by
          rw [parseHead_append b buf c hh, hp]
        cases res with
        | error e =>
          have e1 : readHead b buf (Ev.chunk c :: sc) =
              (.derr e, buf1, Ev.chunk c :: sc) := by
            rw [readHead_enough _ _ _ hh, headParsed, hp]
          have e2 : readHead b (buf.append c) sc = (.derr e, buf1.append c, sc) := by
            rw [readHead_enough _ _ _ hh2, headParsed, hp2]
          rw [decodeAll, decodeAll]
          simp only [pollDec, e1, e2]
        | ok n =>
          have e1 : readHead b buf (Ev.chunk c :: sc) =
              (.gotLen n, buf1, Ev.chunk c :: sc) := by
            rw [readHead_enough _ _ _ hh, headParsed, hp]
          have e2 : readHead b (buf.append c) sc = (.gotLen n, buf1.append c, sc) := by
            rw [readHead_enough _ _ _ hh2, headParsed, hp2]
          by_cases hd : n ≤ buf1.len
          · have hd2 : n ≤ (buf1.append c).len :=
              le_trans hd (ByteBuf.len_le_append buf1 c)
            have f1 := readData_enough n buf1 (Ev.chunk c :: sc) hd
            have f2 : readData n (buf1.append c) sc =
                (.frame (buf1.drainTo n).1, (buf1.drainTo n).2.append c, sc) := by
              rw [readData_enough _ _ _ hd2, drainTo_append n buf1 c hd]
            rw [decodeAll, decodeAll]
            simp only [pollDec, e1, e2, f1, f2]
            rw [ih .head (buf1.drainTo n).2 c sc hc]
          · have f1 : readData n buf1 (Ev.chunk c :: sc) =
                readData n (buf1.append c) sc :=
              readData_chunk n buf1 c sc (Nat.not_le.mp hd) hc
            rw [decodeAll, decodeAll]
            simp only [pollDec, e1, e2, f1]
      · have e1 : readHead b buf (Ev.chunk c :: sc) = readHead b (buf.append c) sc :=
          readHead_chunk b buf c sc (Nat.not_le.mp hh) hc
        rw [decodeAll, decodeAll]
        simp only [pollDec, e1]
    | data n =>
      by_cases hd : n ≤ buf.len
      · have hd2 : n ≤ (buf.append c).len := le_trans hd (ByteBuf.len_le_append buf c)
        have f1 := readData_enough n buf (Ev.chunk c :: sc) hd
        have f2 : readData n (buf.append c) sc =
            (.frame (buf.drainTo n).1, (buf.drainTo n).2.append c, sc) := by
          rw [readData_enough _ _ _ hd2, drainTo_append n buf c hd]
        rw [decodeAll, decodeAll]
        simp only [pollDec, f1, f2]
        rw [ih .head (buf.drainTo n).2 c sc hc]
      · have f1 : readData n buf (Ev.chunk c :: sc) = readData n (buf.append c) sc :=
          readData_chunk n buf c sc (Nat.not_le.mp hd) hc
        rw [decodeAll, decodeAll]
        simp only [pollDec, f1]

/-- A pending read event at the head of the script does not change what a
completing run settles to (forward direction: drop the pending event). -/
theorem pend_skip_fwd (b : Builder) (sc : List Ev) : ∀ (f : Nat) (st : ReadState)
    (buf : ByteBuf) (r : List (List Nat) × Option DecErr),
    decodeAll b f st buf (Ev.pend :: sc) = some r →
    ∃ g, decodeAll b g st buf sc = some r := by
  intro f
  induction f with
  | zero =>
    intro st buf r h
    rw [decodeAll] at h
    exact absurd h (by simp)
  | succ f ih =>
    intro st buf r h
    cases st with
    | head =>
      by_cases hh : b.num_head_bytes ≤ buf.len
      · rcases hp : parseHead b buf with ⟨res, buf1⟩
        cases res with
        | error e =>
          have e1 : readHead b buf (Ev.pend :: sc) =
              (.derr e, buf1, Ev.pend :: sc) := by
            rw [readHead_enough _ _ _ hh, headParsed, hp]
          have e2 : readHead b buf sc = (.derr e, buf1, sc) := by
            rw [readHead_enough _ _ _ hh, headParsed, hp]
          rw [decodeAll] at h
          simp only [pollDec, e1] at h
          refine ⟨f + 1, ?_⟩
          rw [decodeAll]
          simp only [pollDec, e2]
          exact h
        | ok n =>
          have e1 : readHead b buf (Ev.pend :: sc) =
              (.gotLen n, buf1, Ev.pend :: sc) := by
            rw [readHead_enough _ _ _ hh, headParsed, hp]
          have e2 : readHead b buf sc = (.gotLen n, buf1, sc) := by
            rw [readHead_enough _ _ _ hh, headParsed, hp]
          by_cases hd : n ≤ buf1.len
          · have f1 := readData_enough n buf1 (Ev.pend :: sc) hd
            have f2 := readData_enough n buf1 sc hd
            rw [decodeAll] at h
            simp only [pollDec, e1, f1] at h
            rcases hrec : decodeAll b f .head (buf1.drainTo n).2 (Ev.pend :: sc)
              with _ | ⟨fs, t⟩
            · simp only [hrec] at h
              exact absurd h (by simp)
            · simp only [hrec] at h
              obtain ⟨g, hg⟩ := ih .head (buf1.drainTo n).2 (fs, t) hrec
              refine ⟨g + 1, ?_⟩
              rw [decodeAll]
              simp only [pollDec, e2, f2, hg]
              exact h
          · have f1 : readData n buf1 (Ev.pend :: sc) = (.notReady, buf1, sc) :=
              readData_pend n buf1 sc (Nat.not_le.mp hd)
            rw [decodeAll] at h
            simp only [pollDec, e1, f1] at h
            refine ⟨f + 1, ?_⟩
            rw [decodeAll_congr b f .head (.data n) buf buf1 sc sc
              (pollDec_resume b buf buf1 n hh hp sc)]
            exact decodeAll_mono b f (.data n) buf1 sc r h
      · have e1 : readHead b buf (Ev.pend :: sc) = (.notReady, buf, sc) :=
          readHead_pend b buf sc (Nat.not_le.mp hh)
        rw [decodeAll] at h
        simp only [pollDec, e1] at h
        exact ⟨f, h⟩
    | data n =>
      by_cases hd : n ≤ buf.len
      · have f1 := readData_enough n buf (Ev.pend :: sc) hd
        have f2 := readData_enough n buf sc hd
        rw [decodeAll] at h
        simp only [pollDec, f1] at h
        rcases hrec : decodeAll b f .head (buf.drainTo n).2 (Ev.pend :: sc)
          with _ | ⟨fs, t⟩
        · simp only [hrec] at h
          exact absurd h (by simp)
        · simp only [hrec] at h
          obtain ⟨g, hg⟩ := ih .head (buf.drainTo n).2 (fs, t) hrec
          refine ⟨g + 1, ?_⟩
          rw [decodeAll]
          simp only [pollDec, f2, hg]
          exact h
      · have f1 : readData n buf (Ev.pend :: sc) = (.notReady, buf, sc) :=
          readData_pend n buf sc (Nat.not_le.mp hd)
        rw [decodeAll] at h
        simp only [pollDec, f1] at h
        exact ⟨f, h⟩

/-- A pending read event at the head of the script does not change what a
completing run settles to (backward direction: insert a pending event). -/
theorem pend_skip_bwd (b : Builder) (sc : List Ev) : ∀ (f : Nat) (st : ReadState)
    (buf : ByteBuf) (r : List (List Nat) × Option DecErr),
    decodeAll b f st buf sc = some r →
    ∃ g, decodeAll b g st buf (Ev.pend :: sc) = some r := by
  intro f
  induction f with
  | zero =>
    intro st buf r h
    rw [decodeAll] at h
    exact absurd h (by simp)
  | succ f ih =>
    intro st buf r h
    cases st with
    | head =>
      by_cases hh : b.num_head_bytes ≤ buf.len
      · rcases hp : parseHead b buf with ⟨res, buf1⟩
        cases res with
        | error e =>
          have e1 : readHead b buf (Ev.pend :: sc) =
              (.derr e, buf1, Ev.pend :: sc) := by
            rw [readHead_enough _ _ _ hh, headParsed, hp]
          have e2 : readHead b buf sc = (.derr e, buf1, sc) := by
            rw [readHead_enough _ _ _ hh, headParsed, hp]
          rw [decodeAll] at h
          simp only [pollDec, e2] at h
          refine ⟨f + 1, ?_⟩
          rw [decodeAll]
          simp only [pollDec, e1]
          exact h
        | ok n =>
          have e1 : readHead b buf (Ev.pend :: sc) =
              (.gotLen n, buf1, Ev.pend :: sc) := by
            rw [readHead_enough _ _ _ hh, headParsed, hp]
          have e2 : readHead b buf sc = (.gotLen n, buf1, sc) := by
            rw [readHead_enough _ _ _ hh, headParsed, hp]
          by_cases hd : n ≤ buf1.len
          · have f1 := readData_enough n buf1 (Ev.pend :: sc) hd
            have f2 := readData_enough n buf1 sc hd
            rw [decodeAll] at h
            simp only [pollDec, e2, f2] at h
            rcases hrec : decodeAll b f .head (buf1.drainTo n).2 sc with _ | ⟨fs, t⟩
            · simp only [hrec] at h
              exact absurd h (by simp)
            · simp only [hrec] at h
              obtain ⟨g, hg⟩ := ih .head (buf1.drainTo n).2 (fs, t) hrec
              refine ⟨g + 1, ?_⟩
              rw [decodeAll]
              simp only [pollDec, e1, f1, hg]
              exact h
          · have hres : decodeAll b (f + 1) (.data n) buf1 sc = some r := by
              rw [← decodeAll_congr b f .head (.data n) buf buf1 sc sc
                (pollDec_resume b buf buf1 n hh hp sc)]
              exact h
            have f1 : readData n buf1 (Ev.pend :: sc) = (.notReady, buf1, sc) :=
              readData_pend n buf1 sc (Nat.not_le.mp hd)
            refine ⟨f + 1 + 1, ?_⟩
            rw [decodeAll]
            simp only [pollDec, e1, f1]
            exact hres
      · have e1 : readHead b buf (Ev.pend :: sc) = (.notReady, buf, sc) :=
          readHead_pend b buf sc (Nat.not_le.mp hh)
        refine ⟨f + 1 + 1, ?_⟩
        rw [decodeAll]
        simp only [pollDec, e1]
        exact h
    | data n =>
      by_cases hd : n ≤ buf.len
      · have f1 := readData_enough n buf (Ev.pend :: sc) hd
        have f2 := readData_enough n buf sc hd
        rw [decodeAll] at h
        simp only [pollDec, f2] at h
        rcases hrec : decodeAll b f .head (buf.drainTo n).2 sc with _ | ⟨fs, t⟩
        · simp only [hrec] at h
          exact absurd h (by simp)
        · simp only [hrec] at h
          obtain ⟨g, hg⟩ := ih .head (buf.drainTo n).2 (fs, t) hrec
          refine ⟨g + 1, ?_⟩
          rw [decodeAll]
          simp only [pollDec, f1, hg]
          exact h
      · have f1 : readData n buf (Ev.pend :: sc) = (.notReady, buf, sc) :=
          readData_pend n buf sc (Nat.not_le.mp hd)
        refine ⟨f + 1 + 1, ?_⟩
        rw [decodeAll]
        simp only [pollDec, f1]
        exact h

/-- The byte stream carried by a channel script (chunk contents in order). -/
def evBytes : List Ev → List Nat
  | [] => []
  | .chunk c :: r => c ++ evBytes r
  | .pend :: r => evBytes r
  | .fail :: r => evBytes r

/-- The decoder's driver settles on result `r` for this script with some
amount of fuel. -/
def Completes (b : Builder) (st : ReadState) (buf : ByteBuf) (sc : List Ev)
    (r : List (List Nat) × Option DecErr) : Prop :=
  ∃ f, decodeAll b f st buf sc = some r

theorem Completes_pend (b : Builder) (st : ReadState) (buf : ByteBuf) (sc : List Ev)
    (r : List (List Nat) × Option DecErr) :
    Completes b st buf (Ev.pend :: sc) r ↔ Completes b st buf sc r :=
  ⟨fun ⟨f, h⟩ => pend_skip_fwd b sc f st buf r h,
   fun ⟨f, h⟩ => pend_skip_bwd b sc f st buf r h⟩

theorem Completes_chunk (b : Builder) (st : ReadState) (buf : ByteBuf) (c : List Nat)
    (sc : List Ev) (r : List (List Nat) × Option DecErr) (hc : c ≠ []) :
    Completes b st buf (Ev.chunk c :: sc) r ↔ Completes b st (buf.append c) sc r :=
  ⟨fun ⟨f, h⟩ => ⟨f, by rw [← decodeAll_absorb b f st buf c sc hc]; exact h⟩,
   fun ⟨f, h⟩ => ⟨f, by rw [decodeAll_absorb b f st buf c sc hc]; exact h⟩⟩

/-- Feeding the script's chunks one by one is the same as having all their
bytes buffered up front, for any interleaving of pending events. -/
theorem Completes_norm (b : Builder) : ∀ (body : List Ev) (st : ReadState)
    (buf : ByteBuf) (tail : List Ev) (r : List (List Nat) × Option DecErr),
    (∀ c, Ev.chunk c ∈ body → c ≠ []) → Ev.fail ∉ body →
    (Completes b st buf (body ++ tail) r ↔
      Completes b st (buf.append (evBytes body)) tail r) := by
  intro body
  induction body with
  | nil =>
    intro st buf tail r _ _
    rw [show evBytes [] = [] from rfl, ByteBuf.append_nil, List.nil_append]
  | cons e rest ih =>
    intro st buf tail r hc hf
    cases e with
    | pend =>
      rw [List.cons_append, Completes_pend, show evBytes (Ev.pend :: rest) = evBytes rest
        from rfl]
      exact ih st buf tail r (fun c hm => hc c (List.mem_cons_of_mem _ hm))
        (fun hm => hf (List.mem_cons_of_mem _ hm))
    | fail => exact absurd (List.mem_cons_self _ _) hf
    | chunk c =>
      have hcne : c ≠ [] := hc c (List.mem_cons_self _ _)
      rw [List.cons_append, Completes_chunk b st buf c (rest ++ tail) r hcne,
        show evBytes (Ev.chunk c :: rest) = c ++ evBytes rest from rfl,
        ← ByteBuf.append_append]
      exact ih st (buf.append c) tail r (fun c' hm => hc c' (List.mem_cons_of_mem _ hm))
        (fun hm => hf (List.mem_cons_of_mem _ hm))

/-- Fragmentation independence of the reserve-free decode loop: two scripts
of nonempty chunks carrying the same bytes (pending results interleaved
anywhere, each followed by channel shutdown) settle to the same frame
sequences with the same terminal outcome.  This is the intent-level half of
C8; the reserve-faithful transfer is `fragIndepF_reserveSafe` below. -/
theorem fragIndep_reserveFree (b : Builder) (body₁ body₂ : List Ev)
    (r : List (List Nat) × Option DecErr)
    (h₁ : ∀ c, Ev.chunk c ∈ body₁ → c ≠ []) (hf₁ : Ev.fail ∉ body₁)
    (h₂ : ∀ c, Ev.chunk c ∈ body₂ → c ≠ []) (hf₂ : Ev.fail ∉ body₂)
    (hbytes : evBytes body₁ = evBytes body₂) :
    (Completes b .head ByteBuf.new (body₁ ++ [Ev.chunk []]) r ↔
      Completes b .head ByteBuf.new (body₂ ++ [Ev.chunk []]) r) := by
  rw [Completes_norm b body₁ .head ByteBuf.new [Ev.chunk []] r h₁ hf₁,
    Completes_norm b body₂ .head ByteBuf.new [Ev.chunk []] r h₂ hf₂, hbytes]

theorem fragIndep_reserveFree_example :
    Completes Builder.new .head ByteBuf.new
      ([.chunk [0, 0, 0, 1], .pend, .chunk [97]] ++ [Ev.chunk []]) ([[97]], none) ∧
    Completes Builder.new .head ByteBuf.new
      ([.chunk [0, 0, 0, 1, 97]] ++ [Ev.chunk []]) ([[97]], none) := by
  have h := fragIndep_reserveFree Builder.new
    [.chunk [0, 0, 0, 1], .pend, .chunk [97]] [.chunk [0, 0, 0, 1, 97]] ([[97]], none)
    (by intro c hm; simp at hm; rcases hm with rfl | rfl <;> simp)
    (by decide)
    (by intro c hm; simp at hm; subst hm; simp)
    (by decide)
    (by decide)
  have hrun : Completes Builder.new .head ByteBuf.new
      ([.chunk [0, 0, 0, 1], .pend, .chunk [97]] ++ [Ev.chunk []]) ([[97]], none) :=
    ⟨5, by decide⟩
  exact ⟨hrun, h.mp hrun⟩

/-- The enough-bytes returns of the two `read_head` models agree. -/
theorem headParsedF_eq (b : Builder) (buf : ByteBuf) (sc : List Ev) :
    headParsedF b buf sc = (headResInj (headParsed b buf sc).1, (headParsed b buf sc).2) := by
  rcases hp : parseHead b buf with ⟨res, buf1⟩
  cases res <;> simp [headParsedF, headParsed, hp, headResInj]

/-- For configurations whose effective header length is the field length —
exactly the ones for which line 159's subtraction cannot underflow — the
reserve-faithful `read_head` is the plain one. -/
theorem readHeadF_eq_readHead (b : Builder) (hb : b.num_head_bytes ≤ b.length_field_len) :
    ∀ (sc : List Ev) (buf : ByteBuf),
      readHeadF b buf sc = (headResInj (readHead b buf sc).1, (readHead b buf sc).2) := by
  intro sc
  induction sc with
  | nil =>
    intro buf
    by_cases hh : b.num_head_bytes ≤ buf.len
    · simp [readHeadF, readHead, hh, headParsedF_eq]
    · have hna : ¬ b.length_field_len < buf.len := by
        have := Nat.not_le.mp hh
        omega
      simp [readHeadF, readHead, hh, hna, headResInj]
  | cons e r ih =>
    intro buf
    cases e with
    | pend =>
      by_cases hh : b.num_head_bytes ≤ buf.len
      · simp [readHeadF, readHead, hh, headParsedF_eq]
      · have hna : ¬ b.length_field_len < buf.len := by
          have := Nat.not_le.mp hh
          omega
        simp [readHeadF, readHead, hh, hna, headResInj]
    | fail =>
      by_cases hh : b.num_head_bytes ≤ buf.len
      · simp [readHeadF, readHead, hh, headParsedF_eq]
      · have hna : ¬ b.length_field_len < buf.len := by
          have := Nat.not_le.mp hh
          omega
        simp [readHeadF, readHead, hh, hna, headResInj]
    | chunk c =>
      by_cases hh : b.num_head_bytes ≤ buf.len
      · simp [readHeadF, readHead, hh, headParsedF_eq]
      · have hna : ¬ b.length_field_len < buf.len := by
          have := Nat.not_le.mp hh
          omega
        by_cases hce : c.isEmpty
        · by_cases hbe : buf.isEmpty <;>
            simp [readHeadF, readHead, hh, hna, hce, hbe, headResInj]
        · simp [readHeadF, readHead, hh, hna, hce, ih]

theorem pollDecF_eq (b : Builder) (hb : b.num_head_bytes ≤ b.length_field_len)
    (st : ReadState) (buf : ByteBuf) (sc : List Ev) :
    pollDecF b st buf sc = (pollResInj (pollDec b st buf sc).1, (pollDec b st buf sc).2) := by
  cases st with
  | head =>
    rcases hr : readHead b buf sc with ⟨res, buf1, sc1⟩
    have hrF : readHeadF b buf sc = (headResInj res, buf1, sc1) := by
      rw [readHeadF_eq_readHead b hb sc buf, hr]
    cases res with
    | gotLen n =>
      rcases hd : readData n buf1 sc1 with ⟨dr, buf2, sc2⟩
      cases dr <;> simp [pollDecF, pollDec, hr, hrF, hd, headResInj, pollResInj]
    | eos => simp [pollDecF, pollDec, hr, hrF, headResInj, pollResInj]
    | notReady => simp [pollDecF, pollDec, hr, hrF, headResInj, pollResInj]
    | derr e => simp [pollDecF, pollDec, hr, hrF, headResInj, pollResInj]
  | data n =>
    rcases hd : readData n buf sc with ⟨dr, buf1, sc1⟩
    cases dr <;> simp [pollDecF, pollDec, hd, pollResInj]

/-- On reserve-safe configurations the faithful driver is the plain driver
with its terminal outcome relabelled: no run aborts. -/
theorem decodeAllF_eq_map (b : Builder) (hb : b.num_head_bytes ≤ b.length_field_len) :
    ∀ (f : Nat) (st : ReadState) (buf : ByteBuf) (sc : List Ev),
      decodeAllF b f st buf sc =
        Option.map (fun p => (p.1, termOf p.2)) (decodeAll b f st buf sc) := by
  intro f
  induction f with
  | zero => intro st buf sc; rfl
  | succ f ih =>
    intro st buf sc
    rw [decodeAll, decodeAllF]
    rcases hp : pollDec b st buf sc with ⟨res, st1, buf1, sc1⟩
    have hpF : pollDecF b st buf sc = (pollResInj res, st1, buf1, sc1) := by
      rw [pollDecF_eq b hb st buf sc, hp]
    cases res with
    | frame f₀ =>
      simp only [hp, hpF, pollResInj]
      rw [ih st1 buf1 sc1]
      rcases hrec : decodeAll b f st1 buf1 sc1 with _ | ⟨fs, t⟩ <;> simp [hrec]
    | eos => simp [hp, hpF, pollResInj, termOf]
    | derr e => simp [hp, hpF, pollResInj, termOf]
    | notReady =>
      simp only [hp, hpF, pollResInj]
      exact ih st1 buf1 sc1

/-- The faithful driver settles on result `r` with some amount of fuel. -/
def CompletesF (b : Builder) (st : ReadState) (buf : ByteBuf) (sc : List Ev)
    (r : List (List Nat) × DecTerm) : Prop :=
  ∃ f, decodeAllF b f st buf sc = some r

theorem termOf_inj (t t' : Option DecErr) (h : termOf t = termOf t') : t = t' := by
  cases t <;> cases t' <;> simp [termOf] at h <;> simp [h]

theorem CompletesF_not_aborted (b : Builder) (hb : b.num_head_bytes ≤ b.length_field_len)
    (st : ReadState) (buf : ByteBuf) (sc : List Ev) (fs : List (List Nat)) :
    ¬ CompletesF b st buf sc (fs, .aborted) := by
  rintro ⟨f, h⟩
  rw [decodeAllF_eq_map b hb f st buf sc] at h
  rcases hd : decodeAll b f st buf sc with _ | ⟨fs1, t1⟩
  · rw [hd] at h
    exact absurd h (by simp)
  · rw [hd] at h
    simp only [Option.map_some'] at h
    have ht : termOf t1 = DecTerm.aborted := by
      have := congrArg (fun o => (Option.map Prod.snd o).getD DecTerm.clean) h
      simpa using this
    cases t1 <;> simp [termOf] at ht

theorem CompletesF_iff (b : Builder) (hb : b.num_head_bytes ≤ b.length_field_len)
    (st : ReadState) (buf : ByteBuf) (sc : List Ev) (fs : List (List Nat))
    (t : Option DecErr) :
    CompletesF b st buf sc (fs, termOf t) ↔ Completes b st buf sc (fs, t) := by
  constructor
  · rintro ⟨f, h⟩
    rw [decodeAllF_eq_map b hb f st buf sc] at h
    rcases hd : decodeAll b f st buf sc with _ | ⟨fs1, t1⟩
    · rw [hd] at h
      exact absurd h (by simp)
    · rw [hd] at h
      simp only [Option.map_some', Option.some.injEq, Prod.mk.injEq] at h
      obtain ⟨hfs, ht⟩ := h
      refine ⟨f, ?_⟩
      rw [hd, hfs, termOf_inj t1 t ht]
  · rintro ⟨f, h⟩
    refine ⟨f, ?_⟩
    rw [decodeAllF_eq_map b hb f st buf sc, h]
    rfl

/-- Transfer of fragmentation independence to the reserve-faithful decoder,
on the configurations where line 159 cannot abort: any two chunkings of the
same byte stream settle to the same frames and terminal outcome, and no run
aborts.  On the other configurations the property fails on the code
(`C8_reserve_abort_divergence`). -/
theorem fragIndepF_reserveSafe (b : Builder) (hb : b.num_head_bytes ≤ b.length_field_len)
    (body₁ body₂ : List Ev) (r : List (List Nat) × DecTerm)
    (h₁ : ∀ c, Ev.chunk c ∈ body₁ → c ≠ []) (hf₁ : Ev.fail ∉ body₁)
    (h₂ : ∀ c, Ev.chunk c ∈ body₂ → c ≠ []) (hf₂ : Ev.fail ∉ body₂)
    (hbytes : evBytes body₁ = evBytes body₂) :
    (CompletesF b .head ByteBuf.new (body₁ ++ [Ev.chunk []]) r ↔
      CompletesF b .head ByteBuf.new (body₂ ++ [Ev.chunk []]) r) := by
  rcases r with ⟨fs, tm⟩
  cases tm with
  | aborted =>
    exact iff_of_false (CompletesF_not_aborted b hb _ _ _ fs)
      (CompletesF_not_aborted b hb _ _ _ fs)
  | clean =>
    have e₁ := CompletesF_iff b hb .head ByteBuf.new (body₁ ++ [Ev.chunk []]) fs none
    have e₂ := CompletesF_iff b hb .head ByteBuf.new (body₂ ++ [Ev.chunk []]) fs none
    simp only [termOf] at e₁ e₂
    rw [e₁, e₂]
    exact fragIndep_reserveFree b body₁ body₂ (fs, none) h₁ hf₁ h₂ hf₂ hbytes
  | failed e =>
    have e₁ := CompletesF_iff b hb .head ByteBuf.new (body₁ ++ [Ev.chunk []]) fs (some e)
    have e₂ := CompletesF_iff b hb .head ByteBuf.new (body₂ ++ [Ev.chunk []]) fs (some e)
    simp only [termOf] at e₁ e₂
    rw [e₁, e₂]
    exact fragIndep_reserveFree b body₁ body₂ (fs, some e) h₁ hf₁ h₂ hf₂ hbytes

/-- C8: the claim (spec §8's fragmentation independence) states the code's
clear intent, but the code violates it: under a configuration with
`length_field_offset = 4` the 9-byte stream
`[9,9,9,9] ++ [0,0,0,1] ++ [97]` fed in one read decodes to the single
frame `[97]` with a clean end, while the same bytes fed as the chunks
`[9,9,9,9]`, `[0]`, `[0,0,1,97]` leave 5 header bytes buffered at a `Head`
read attempt, where line 159 computes `length_field_len - buf.len() = 4 - 5`
— a `usize` underflow (debug panic; wrapped, an unsatisfiable
`reserve(2^64 - 1)`), aborting the run with no frame.  So chunking changes
the outcome.  On reserve-safe configurations the claimed independence does
hold (`fragIndepF_reserveSafe`). -/
theorem C8_reserve_abort_divergence :
    decodeStreamF (Builder.new.set_length_field_offset 4) 3
      [Ev.chunk [9, 9, 9, 9, 0, 0, 0, 1, 97], Ev.chunk []] =
      some ([[97]], .clean) ∧
    decodeStreamF (Builder.new.set_length_field_offset 4) 4
      [Ev.chunk [9, 9, 9, 9], Ev.chunk [0], Ev.chunk [0, 0, 1, 97], Ev.chunk []] =
      some ([], .aborted) ∧
    evBytes [Ev.chunk [9, 9, 9, 9], Ev.chunk [0], Ev.chunk [0, 0, 1, 97]] =
      evBytes [Ev.chunk [9, 9, 9, 9, 0, 0, 0, 1, 97]] ∧
    (some (([[97]], DecTerm.clean)) : Option (List (List Nat) × DecTerm)) ≠
      some ([], DecTerm.aborted) := by
  refine ⟨by decide, by decide, by decide, by decide⟩

/-- C1 counterexample: with `length_adjustment = 1` (a configuration the
claim explicitly includes) a 1-byte payload within `max_frame_len` encodes
to `[0,0,0,1,97]`, but the same configuration's decoder adjusts the parsed
length to 2 and fails with `TruncatedPayload` instead of yielding the
payload — encoder and decoder built from one configuration are not
wire-compatible once `length_adjustment ≠ 0`. -/
theorem C1_adjustment_breaks_roundtrip :
    ([97] : List Nat).length ≤ (Builder.new.set_length_adjustment 1).max_frame_len ∧
    roundTrip (Builder.new.set_length_adjustment 1) [97] =
      some ([], some .truncPayload) ∧
    some (([], some DecErr.truncPayload) : List (List Nat) × Option DecErr) ≠
      some ([[97]], none) := by
  refine ⟨by decide, by decide, by decide⟩

end LD
